import Mathlib

/-!
# A verification model of the quickstep Bf-tree core

This file gives a shallow embedding, in Lean, of the parts of the
`quickstep` repository that the specification claims talk about:

* the slotted leaf / mini-page layout and its operations
  (`src/types.rs`, `src/node.rs`);
* leaf split plans (`src/page_op.rs`);
* the inner B+-tree node's pivot insertion (`src/btree.rs`);
* the write-ahead-log record format, its serialisation, parsing,
  and the `WalManager` state operations (`src/wal.rs`);
* WAL replay with commit filtering, transaction lifecycle, and the
  delete path of the transaction coordinator (`src/lib.rs`).

Machine integers are modelled as `Nat` with explicit `% 2^w`
truncation where the Rust code truncates.  Byte strings are
`List Nat`, with well-formedness (every byte < 256) carried as
hypotheses where a result depends on it.  Heap bytes inside a page
are represented by letting each slot carry its own key/value bytes;
the offset bookkeeping of the slot directory is modelled exactly as
in the source so that all space checks are faithful.
-/

namespace Quickstep

/-! ## Byte strings -/

/-- Lexicographic comparison of byte strings, as Rust's `Ord` for `&[u8]`. -/
def cmpBytes : List Nat → List Nat → Ordering
  | [], [] => .eq
  | [], _ :: _ => .lt
  | _ :: _, [] => .gt
  | a :: as, b :: bs =>
    match compare a b with
    | .eq => cmpBytes as bs
    | o => o

/-- Longest common byte-string prefab of two byte strings
(`get_node_prefix` derives the node prefab from its two fence keys
by zipping and taking while-equal; this is the same computation). -/
def lcpBytes : List Nat → List Nat → List Nat
  | a :: as, b :: bs => if a = b then a :: lcpBytes as bs else []
  | _, _ => []

/-! ## KV record types and slots (`src/types.rs`)

`KVMeta` is a packed 64-bit word in the source.  Here a slot carries
the logical content of that word together with the key/value bytes it
addresses in the page heap; `offset` keeps the heap bookkeeping that
the space checks of `try_put_with_suffix` read. -/

/--
The four record types.  The doc table in `types.rs` reads:
```
| Record    | Dirty? | Exists? |
| INSERT    |  true  |  true   |
| CACHE     |  false |  true   |
| TOMBSTONE |  true  |  false  |
| PHANTOM   |  false |  false  |
```
-/
inductive KVRecordType
  | Insert
  | Cache
  | Tombstone
  | Phantom
deriving DecidableEq, Repr

/-- `KVRecordType::is_dirty` exactly as written in `types.rs` lines
130–137: both match arms of the source return `true`. -/
def KVRecordType.isDirty : KVRecordType → Bool
  | .Insert | .Tombstone => true
  | .Cache | .Phantom => true

/-- `KVRecordType::exists` exactly as written in `types.rs` lines
139–146: both match arms of the source return `true`. -/
def KVRecordType.existsFlag : KVRecordType → Bool
  | .Insert | .Cache => true
  | .Tombstone | .Phantom => true

/-- `get_lookahead` (`node.rs`): big-endian u16 of the first two
suffix bytes, zero-padded. -/
def getLookahead (ks : List Nat) : Nat :=
  (ks.headD 0) * 256 + ((ks.drop 1).headD 0)

/-- One slot-directory entry together with the heap bytes it owns. -/
structure Slot where
  key : List Nat
  val : List Nat
  typ : KVRecordType
  fence : Bool
  refb : Bool
  offset : Nat
  lookahead : Nat
deriving DecidableEq, Repr

def dfltSlot : Slot := ⟨[], [], .Phantom, false, false, 0, 0⟩

instance : Inhabited Slot := ⟨dfltSlot⟩

/-- A leaf or mini-page: its byte size and the slot directory in
order.  `record_count` of the source is the directory length here. -/
structure Node where
  sizeBytes : Nat
  slots : List Slot
deriving DecidableEq, Repr

namespace Node

def recordCount (n : Node) : Nat := n.slots.length

/-- `get_kv_meta` — read of the slot directory at an index
(the source asserts the index is in bounds). -/
def getKvMeta (n : Node) (i : Nat) : Slot := n.slots.getD i dfltSlot

/-- `get_node_prefix`: longest common prefab of the stored keys of
slot 0 and slot `record_count - 1` (the two fences). -/
def nodePfx (n : Node) : List Nat :=
  lcpBytes (n.getKvMeta 0).key (n.getKvMeta (n.recordCount - 1)).key

/-- `fence_bounds`: stored keys of the first and last slot. -/
def fenceBounds (n : Node) : List Nat × List Nat :=
  ((n.getKvMeta 0).key, (n.getKvMeta (n.recordCount - 1)).key)

/-- The binary-search loop of `NodeMeta::binary_search` (`node.rs`
lines 327–361), with `lower`/`upper` as in the source; returns
`.ok idx` on a full-suffix match and `.error idx` with the final
`lower` otherwise (the `break` paths also return `Err(lower)`).

The `while lower <= upper` loop shrinks `upper + 1 - lower` by at
least one per iteration, so `fuel = upper + 1 - lower` iterations
always suffice; `binarySearch` passes exactly that fuel, and when
the fuel runs out `lower > upper` holds, which is the loop's own
exit with `Err(lower)`. -/
def bsLoop (n : Node) (ks : List Nat) (tl : Nat) : Nat → Nat → Nat → Except Nat Nat
  | 0, lower, _upper => .error lower
  | fuel + 1, lower, upper =>
    if lower ≤ upper then
      let mid := lower + (upper - lower) / 2
      let midKv := n.getKvMeta mid
      match compare tl midKv.lookahead with
      | .lt =>
        if mid = 0 then .error lower
        else bsLoop n ks tl fuel lower (mid - 1)
      | .eq =>
        match cmpBytes ks midKv.key with
        | .lt =>
          if mid = 0 then .error lower
          else bsLoop n ks tl fuel lower (mid - 1)
        | .eq => .ok mid
        | .gt => bsLoop n ks tl fuel (mid + 1) upper
      | .gt => bsLoop n ks tl fuel (mid + 1) upper
    else .error lower

/-- `NodeMeta::binary_search` on a key suffix. -/
def binarySearch (n : Node) (ks : List Nat) : Except Nat Nat :=
  let tl := getLookahead ks
  if n.recordCount ≤ 2 then .error 1
  else
    let lower := if (n.getKvMeta 0).fence then 1 else 0
    let upper0 := n.recordCount - 1
    let upper := if (n.getKvMeta upper0).fence then upper0 - 1 else upper0
    if lower > upper then .error lower
    else bsLoop n ks tl (upper + 1 - lower) lower upper

/-- `NodeMeta::get` (`node.rs` lines 56–70): locate by suffix, then
return the value only when the record type has `exists == true`. -/
def get (n : Node) (key : List Nat) : Option (List Nat) :=
  let p := n.nodePfx
  match n.binarySearch (key.drop p.length) with
  | .error _ => none
  | .ok i =>
    let kv := n.getKvMeta i
    match kv.typ.existsFlag with
    | true => some kv.val
    | false => none

/-- `install_fences` (`node.rs` lines 465–494): write the two fence
payloads at the top of the page and reinstall a two-slot directory.
`cursor as u16` truncates the stored offsets. -/
def installFences (n : Node) (lower upper : List Nat) : Node :=
  let upperOffset := (n.sizeBytes - upper.length) % 65536
  let lowerOffset := (n.sizeBytes - upper.length - lower.length) % 65536
  { n with slots :=
      [⟨lower, [], .Cache, true, true, lowerOffset, 0⟩,
       ⟨upper, [], .Cache, true, true, upperOffset, 0⟩] }

/-- `reset_user_entries_with_fences`. -/
def resetUserEntriesWithFences (n : Node) (lower upper : List Nat) : Node :=
  n.installFences lower upper

/-- `reset_user_entries`: keep the *existing* fence keys, drop the
user entries.  A node with ≤ 2 records is returned unchanged. -/
def resetUserEntries (n : Node) : Node :=
  if n.recordCount ≤ 2 then n
  else
    let b := n.fenceBounds
    n.resetUserEntriesWithFences b.1 b.2

/-- `find_min_offset`: minimum stored offset over the directory (the
source unwraps, relying on the two fences being present; offsets are
16-bit so 65536 is above every stored offset). -/
def findMinOffset (n : Node) : Nat :=
  (n.slots.map (·.offset)).foldr min 65536

def InsufficientSpace : Type := Unit

instance : DecidableEq InsufficientSpace := fun _ _ => .isTrue rfl

/-- `try_put_with_suffix` (`node.rs` lines 158–245).

The `Ok` branch with equal value length rewrites the value bytes in
place; with a different length it erases the old heap bytes
(`erase_kv_in_buffer` shifts every smaller offset up by the freed
length) and reallocates.  The `Err` branch checks the free space and
inserts a fresh `INSERT` slot at the reported directory index.  The
record type of an updated slot is left unchanged, as in the source. -/
def tryPutWithSuffix (n : Node) (ks v : List Nat) : Except InsufficientSpace Node :=
  match n.binarySearch ks with
  | .ok idx =>
    let target := n.getKvMeta idx
    if target.val.length = v.length then
      .ok { n with slots := n.slots.set idx { target with val := v } }
    else
      let len := target.key.length + target.val.length
      let othersMin := (n.slots.map (·.offset)).filter (· < target.offset)
      let minOff := othersMin.foldr min target.offset
      let allocPtr := minOff + len
      let shifted := n.slots.map fun s =>
        if s.offset < target.offset then { s with offset := (s.offset + len) % 65536 } else s
      let newSize := ks.length + v.length
      let newOffset := allocPtr - newSize
      let metaEnd := (n.recordCount + 1) * 8
      if newOffset < metaEnd then .error ()
      else
        let target' : Slot :=
          { target with key := ks, val := v, offset := newOffset % 65536, refb := true }
        .ok { n with slots := shifted.set idx target' }
  | .error idx =>
    let size := ks.length + v.length
    let minOff := n.findMinOffset
    if size > minOff then .error ()
    else
      let newOffset := minOff - size
      let metaEnd := (n.recordCount + 2) * 8
      if newOffset < metaEnd then .error ()
      else
        let newMeta : Slot := ⟨ks, v, .Insert, false, true, newOffset % 65536, getLookahead ks⟩
        .ok { n with slots := n.slots.insertIdx idx newMeta }

/-- `try_put`: strip the node prefab and insert by suffix. -/
def tryPut (n : Node) (key v : List Nat) : Except InsufficientSpace Node :=
  let p := n.nodePfx
  n.tryPutWithSuffix (key.drop p.length) v

/-- `replay_entries`: left-to-right reinsertion through `try_put`. -/
def replayEntries (n : Node) : List (List Nat × List Nat) → Except InsufficientSpace Node
  | [] => .ok n
  | (k, v) :: rest =>
    match n.tryPut k v with
    | .error e => .error e
    | .ok n' => n'.replayEntries rest

/-- `mark_entry_tombstone`: fences and already-tombstoned entries are
refused; otherwise the record type flips to `TOMBSTONE`. -/
def markEntryTombstone (n : Node) (idx : Nat) : Bool × Node :=
  let kv := n.getKvMeta idx
  if kv.fence ∨ kv.typ = KVRecordType.Tombstone then (false, n)
  else (true, { n with slots := n.slots.set idx { kv with typ := .Tombstone } })

/-- `mark_tombstone` (`node.rs` lines 91–101). -/
def markTombstone (n : Node) (key : List Nat) : Bool × Node :=
  let p := n.nodePfx
  if key.take p.length ≠ p then (false, n)
  else
    match n.binarySearch (key.drop p.length) with
    | .ok idx => n.markEntryTombstone idx
    | .error _ => (false, n)

/-- `user_entry_count` — counts entries whose type has
`exists == true` (which, per `existsFlag`, is every entry). -/
def userEntryCount (n : Node) : Nat :=
  (n.slots.filter (fun s => s.typ.existsFlag)).length

/-- `collect_user_records` (`lib.rs`): the non-fence entries with the
node prefab re-attached. -/
def userRecords (n : Node) : List (List Nat × List Nat) :=
  let p := n.nodePfx
  (n.slots.filter (fun s => !s.fence)).map (fun s => (p ++ s.key, s.val))

end Node

/-! ## WAL records and their file format (`src/wal.rs`)

Multi-byte integers are little-endian.  `leBytes w v` models
`v.to_le_bytes()` restricted to `w` bytes, `leVal` models
`from_le_bytes`. -/

def leBytes : Nat → Nat → List Nat
  | 0, _ => []
  | w + 1, v => v % 256 :: leBytes w (v / 256)

def leVal : List Nat → Nat
  | [] => 0
  | b :: bs => b + 256 * leVal bs

/-- `TXN_META_PAGE_ID = u64::MAX`. -/
def TXN_META_PAGE_ID : Nat := 2 ^ 64 - 1

inductive WalEntryKind
  | Redo
  | Undo
deriving DecidableEq, Repr

/-- `WalEntryKind::as_byte`. -/
def WalEntryKind.asByte : WalEntryKind → Nat
  | .Redo => 0
  | .Undo => 1

/-- `WalEntryKind::from_byte`: `1` is `Undo`, everything else `Redo`. -/
def WalEntryKind.fromByte (b : Nat) : WalEntryKind :=
  if b = 1 then .Undo else .Redo

inductive WalTxnMarker
  | Begin
  | Commit
  | Abort
deriving DecidableEq, Repr

/-- `WalTxnMarker::to_record_type`. -/
def WalTxnMarker.toRecordType : WalTxnMarker → Nat
  | .Begin => 2
  | .Commit => 3
  | .Abort => 4

inductive WalOp
  | Put : List Nat → WalOp
  | Tombstone
  | TxnMarker : WalTxnMarker → WalOp
deriving DecidableEq, Repr

def WalOp.isMarker : WalOp → Bool
  | .TxnMarker _ => true
  | _ => false

structure WalRecord where
  pageId : Nat
  key : List Nat
  lowerFence : List Nat
  upperFence : List Nat
  kind : WalEntryKind
  txnId : Nat
  op : WalOp
deriving DecidableEq, Repr

/-- `write_record_payload` (`wal.rs` lines 413–474): the byte image
of one record, by record type. -/
def writeRecordPayload (r : WalRecord) : List Nat :=
  match r.op with
  | .Put value =>
    0 :: r.kind.asByte :: leBytes 8 r.txnId ++
      leBytes 4 r.key.length ++ leBytes 4 value.length ++
      leBytes 4 r.lowerFence.length ++ leBytes 4 r.upperFence.length ++
      r.key ++ value ++ r.lowerFence ++ r.upperFence
  | .Tombstone =>
    1 :: r.kind.asByte :: leBytes 8 r.txnId ++
      leBytes 4 r.key.length ++
      leBytes 4 r.lowerFence.length ++ leBytes 4 r.upperFence.length ++
      r.key ++ r.lowerFence ++ r.upperFence
  | .TxnMarker m =>
    m.toRecordType :: r.kind.asByte :: leBytes 8 r.txnId

/-- `record_size` (`wal.rs` lines 618–644). -/
def recordSize (r : WalRecord) : Nat :=
  match r.op with
  | .Put value =>
    1 + 8 + 1 + 4 + 4 + 4 + 4 + r.key.length + value.length +
      r.lowerFence.length + r.upperFence.length
  | .Tombstone =>
    1 + 8 + 1 + 4 + 4 + 4 + r.key.length + r.lowerFence.length + r.upperFence.length
  | .TxnMarker _ => 1 + 8 + 1

/-- `write_group`: group marker `0xAA`, the page id, the record
count, then the record payloads.  An empty group writes nothing. -/
def writeGroup (pageId : Nat) (records : List WalRecord) : List Nat :=
  if records.isEmpty then []
  else
    170 :: leBytes 8 pageId ++ leBytes 4 records.length ++
      (records.map writeRecordPayload).flatten

/-! ### Reading records back (`read_records`, `wal.rs` lines 476–616)

The imperative index-based scan is modelled as a consuming parser:
`idx` arithmetic on the byte vector becomes `take`/`drop` on the
remaining list, and `bytes.len() - idx` becomes the length of the
remaining list. -/

/-- Parse one record of a group whose header named `pageId`.
`none` models the `break 'outer` paths (truncated or unknown
record type). -/
def parseRecord (pageId : Nat) : List Nat → Option (WalRecord × List Nat)
  | [] => none
  | rt :: rest =>
    if rest.length < 1 + 8 then none
    else
      let kind := WalEntryKind.fromByte (rest.headD 0)
      let txn := leVal ((rest.drop 1).take 8)
      let rest2 := rest.drop 9
      if rt = 1 then
        if rest2.length < 12 then none
        else
          let keyLen := leVal (rest2.take 4)
          let lowerLen := leVal ((rest2.drop 4).take 4)
          let upperLen := leVal ((rest2.drop 8).take 4)
          let rest3 := rest2.drop 12
          if rest3.length < keyLen + lowerLen + upperLen then none
          else
            some (⟨pageId, rest3.take keyLen,
                   ((rest3.drop keyLen).take lowerLen),
                   ((rest3.drop (keyLen + lowerLen)).take upperLen),
                   kind, txn, .Tombstone⟩,
                  rest3.drop (keyLen + lowerLen + upperLen))
      else if rt = 0 then
        if rest2.length < 16 then none
        else
          let keyLen := leVal (rest2.take 4)
          let valLen := leVal ((rest2.drop 4).take 4)
          let lowerLen := leVal ((rest2.drop 8).take 4)
          let upperLen := leVal ((rest2.drop 12).take 4)
          let rest3 := rest2.drop 16
          if rest3.length < keyLen + valLen + lowerLen + upperLen then none
          else
            some (⟨pageId, rest3.take keyLen,
                   ((rest3.drop (keyLen + valLen)).take lowerLen),
                   ((rest3.drop (keyLen + valLen + lowerLen)).take upperLen),
                   kind, txn, .Put ((rest3.drop keyLen).take valLen)⟩,
                  rest3.drop (keyLen + valLen + lowerLen + upperLen))
      else if rt = 2 then
        some (⟨pageId, [], [], [], kind, txn, .TxnMarker .Begin⟩, rest2)
      else if rt = 3 then
        some (⟨pageId, [], [], [], kind, txn, .TxnMarker .Commit⟩, rest2)
      else if rt = 4 then
        some (⟨pageId, [], [], [], kind, txn, .TxnMarker .Abort⟩, rest2)
      else none

/-- The per-group record loop: parse `cnt` records.  The returned
flag is `false` on a `break 'outer`; records parsed before the break
are still returned, matching the source, where they have already
been pushed. -/
def parseRecordsLoop (pageId : Nat) : Nat → List Nat → List WalRecord × List Nat × Bool
  | 0, bytes => ([], bytes, true)
  | c + 1, bytes =>
    match parseRecord pageId bytes with
    | none => ([], bytes, false)
    | some (r, rest) =>
      let (rs, rem, ok) := parseRecordsLoop pageId c rest
      (r :: rs, rem, ok)

/-- The outer group loop of `read_records`: returns the parsed
records and `valid_idx`, here relative to the start of the record
area (each completed group adds its byte count; a malformed group,
or trailing bytes shorter than a group header, contribute nothing,
so the final value is the offset just past the last fully valid
group, as the imperative `valid_idx` is).

Every loop iteration consumes at least the 13-byte group header, so
`fuel = bytes.length + 1` iterations always suffice; `parseGroups`
passes exactly that, and the fuel-exhausted branch is never reached
from it. -/
def parseGroupsGo (fuel : Nat) (bytes : List Nat) : List WalRecord × Nat :=
  match fuel with
  | 0 => ([], 0)
  | fuel + 1 =>
    if bytes.length < 13 then ([], 0)
    else
      match bytes with
      | [] => ([], 0)
      | m :: rest =>
        if m ≠ 170 then ([], 0)
        else
          let pageId := leVal (rest.take 8)
          let cnt := leVal ((rest.drop 8).take 4)
          let body := rest.drop 12
          match parseRecordsLoop pageId cnt body with
          | (recs, rem, ok) =>
            if ok then
              let groupConsumed := bytes.length - rem.length
              let next := parseGroupsGo fuel rem
              (recs ++ next.1, groupConsumed + next.2)
            else (recs, 0)

/-- `read_records` restricted to the record area (the bytes after
the 32-byte manifest): the record list and `valid_idx`. -/
def parseGroups (bytes : List Nat) : List WalRecord × Nat :=
  parseGroupsGo (bytes.length + 1) bytes

/-! ### The WAL manager state

The in-memory state of `WalManager` that the claims mention: the
file length, the cached record list and the manifest's
`checkpoint_len`.  The per-page counter map and the two totals are
omitted — no quantity under verification reads them (the
`checkpoint_len` written by `checkpoint_page` is recomputed from the
bytes of the rewritten groups, not from the old counters). -/

structure WalState where
  fileLen : Nat
  records : List WalRecord
  checkpointLen : Nat
deriving DecidableEq, Repr

/-- `append_record`: seek to the end, push the record, write one
single-record group, leaving `checkpoint_len` untouched. -/
def WalState.appendRecord (s : WalState) (r : WalRecord) : WalState :=
  { fileLen := s.fileLen + (writeGroup r.pageId [r]).length,
    records := s.records ++ [r],
    checkpointLen := s.checkpointLen }

/-- `append_put`. -/
def WalState.appendPut (s : WalState) (pageId : Nat) (key value lf uf : List Nat)
    (kind : WalEntryKind) (txnId : Nat) : WalState :=
  s.appendRecord ⟨pageId, key, lf, uf, kind, txnId, .Put value⟩

/-- `append_tombstone`. -/
def WalState.appendTombstone (s : WalState) (pageId : Nat) (key lf uf : List Nat)
    (kind : WalEntryKind) (txnId : Nat) : WalState :=
  s.appendRecord ⟨pageId, key, lf, uf, kind, txnId, .Tombstone⟩

/-- `append_txn_marker`: sentinel page id, empty key and fences. -/
def WalState.appendTxnMarker (s : WalState) (marker : WalTxnMarker)
    (kind : WalEntryKind) (txnId : Nat) : WalState :=
  s.appendRecord ⟨TXN_META_PAGE_ID, [], [], [], kind, txnId, .TxnMarker marker⟩

/-- Consecutive runs of records with equal page id, as the
`rewrite_records` while-loop groups them. -/
def groupRuns : List WalRecord → List (Nat × List WalRecord)
  | [] => []
  | r :: rest =>
    match groupRuns rest with
    | [] => [(r.pageId, [r])]
    | (p, g) :: gs =>
      if p = r.pageId then (p, r :: g) :: gs
      else (r.pageId, [r]) :: (p, g) :: gs

/-- Total bytes written by `rewrite_records` for a record list. -/
def rewriteLen (records : List WalRecord) : Nat :=
  ((groupRuns records).map (fun pg => (writeGroup pg.1 pg.2).length)).sum

/-- `checkpoint_page` (`wal.rs` lines 279–304): drop the page's
records, rewrite the remaining groups from offset 32, and set
`checkpoint_len = 32 + total_bytes` where `total_bytes` sums the
bytes of the rewritten groups. -/
def WalState.checkpointPage (s : WalState) (pageId : Nat) : WalState :=
  if s.records.all (fun r => r.pageId ≠ pageId) then s
  else
    let recs := s.records.filter (fun r => r.pageId ≠ pageId)
    let bytes := rewriteLen recs
    { fileLen := 32 + bytes, records := recs, checkpointLen := 32 + bytes }

/-- `clear` (`wal.rs` lines 306–319). -/
def WalState.clear (_s : WalState) : WalState :=
  { fileLen := 32, records := [], checkpointLen := 32 }

inductive WalAction
  | append : WalRecord → WalAction
  | checkpoint : Nat → WalAction
  | clear : WalAction
deriving DecidableEq, Repr

def WalState.applyAction (s : WalState) : WalAction → WalState
  | .append r => s.appendRecord r
  | .checkpoint p => s.checkpointPage p
  | .clear => s.clear

def WalState.run (s : WalState) (actions : List WalAction) : WalState :=
  actions.foldl WalState.applyAction s

/-! ### Opening the WAL file (`WalManager::open` and `read_manifest`) -/

/-- "WALM". -/
def MANIFEST_MAGIC : List Nat := [87, 65, 76, 77]

/-- The 32-byte manifest image with a given `checkpoint_len`. -/
def manifestBytes (cl : Nat) : List Nat :=
  MANIFEST_MAGIC ++ leBytes 4 1 ++ leBytes 8 cl ++ List.replicate 16 0

/-- `read_manifest`: result is the manifest and the file content
after any re-initialisation (a short file is extended to 32 zero
bytes and then overwritten with a fresh manifest; a bad magic or
version gets a fresh manifest written over the first 32 bytes). -/
def readManifest (file : List Nat) : Nat × List Nat :=
  if file.length < 32 then (32, manifestBytes 32)
  else
    let header := file.take 32
    if header.take 4 ≠ MANIFEST_MAGIC ∨ leVal ((header.drop 4).take 4) ≠ 1 then
      (32, manifestBytes 32 ++ file.drop 32)
    else
      (max (leVal ((header.drop 8).take 8)) 32, file)

/-- `WalManager::open` on a file image: read the manifest, parse the
record area from offset 32, truncate to the last valid group
boundary, and clamp `checkpoint_len` to the valid length. -/
def walOpen (file : List Nat) : WalState :=
  let m := readManifest file
  let mcl := m.1
  let file1 := m.2
  let parsed := parseGroups (file1.drop 32)
  let validLen := 32 + parsed.2
  let file2 := if validLen < file1.length then file1.take validLen else file1
  let cl := if mcl > validLen then validLen else mcl
  { fileLen := file2.length, records := parsed.1, checkpointLen := cl }

/-! ## WAL replay with commit filtering (`QuickStep::replay_wal`,
`QuickStep::committed_txn_ids`, `src/lib.rs` lines 397–515) -/

/-- The transaction-marker group: records whose page id is the
sentinel (`grouped.remove(&TXN_META_PAGE_ID)`), in file order. -/
def txnMetaOf (records : List WalRecord) : List WalRecord :=
  records.filter (fun r => r.pageId = TXN_META_PAGE_ID)

/-- The final marker recorded for a transaction: `latest` is a map
updated per marker record in order, so the last marker wins. -/
def finalMarker (txnMeta : List WalRecord) (t : Nat) : Option WalTxnMarker :=
  txnMeta.foldl
    (fun acc r =>
      match r.op with
      | .TxnMarker m => if r.txnId = t then some m else acc
      | _ => acc)
    none

/-- `committed_txn_ids` returns `None` (no filtering) when the
marker group is empty or contains no marker records; otherwise the
commit filter is active. -/
def replayFilterActive (txnMeta : List WalRecord) : Bool :=
  if txnMeta.isEmpty then false
  else if txnMeta.all (fun r => !r.op.isMarker) then false
  else true

/-- Membership in the committed set: the final marker is `Commit`. -/
def isCommitted (txnMeta : List WalRecord) (t : Nat) : Bool :=
  decide (finalMarker txnMeta t = some WalTxnMarker.Commit)

/-- The `BTreeMap<Vec<u8>, Vec<u8>>` of replayed entries, kept as an
association list sorted by key. -/
def mapInsert : List (List Nat × List Nat) → List Nat → List Nat →
    List (List Nat × List Nat)
  | [], k, v => [(k, v)]
  | (k0, v0) :: rest, k, v =>
    match cmpBytes k k0 with
    | .lt => (k, v) :: (k0, v0) :: rest
    | .eq => (k, v) :: rest
    | .gt => (k0, v0) :: mapInsert rest k v

def mapRemove : List (List Nat × List Nat) → List Nat → List (List Nat × List Nat)
  | [], _ => []
  | (k0, v0) :: rest, k =>
    match cmpBytes k k0 with
    | .lt => (k0, v0) :: rest
    | .eq => rest
    | .gt => (k0, v0) :: mapRemove rest k

/-- The per-page replay accumulator: the running fence pair and the
entry map. -/
structure ReplayAcc where
  lower : Option (List Nat)
  upper : Option (List Nat)
  entries : List (List Nat × List Nat)
deriving DecidableEq, Repr

/-- One iteration of the per-page record loop of `replay_wal`:
`Undo` records are skipped, then uncommitted transactions are
skipped when the filter is active; surviving records update the
fences and then the entry map by operation. -/
def replayStep (txnMeta : List WalRecord) (acc : ReplayAcc) (r : WalRecord) : ReplayAcc :=
  if r.kind = WalEntryKind.Undo then acc
  else if replayFilterActive txnMeta ∧ ¬ isCommitted txnMeta r.txnId then acc
  else
    let acc1 : ReplayAcc := { acc with lower := some r.lowerFence, upper := some r.upperFence }
    match r.op with
    | .Tombstone => { acc1 with entries := mapRemove acc1.entries r.key }
    | .Put v => { acc1 with entries := mapInsert acc1.entries r.key v }
    | .TxnMarker _ => acc

/-- The replay computation for one page group. -/
def pageReplay (records : List WalRecord) (p : Nat) : ReplayAcc :=
  (records.filter (fun r => r.pageId = p)).foldl
    (replayStep (txnMetaOf records)) ⟨none, none, []⟩

/-! ## Leaf split plans (`src/page_op.rs`) -/

structure LeafEntryOwned where
  key : List Nat
  value : List Nat
deriving DecidableEq, Repr

structure LeafSplitOutcome where
  pivotKey : List Nat
  leftCount : Nat
  rightCount : Nat
deriving DecidableEq, Repr

structure LeafSplitPlan where
  pfx : List Nat
  pivotKey : List Nat
  leftEntries : List LeafEntryOwned
  rightEntries : List LeafEntryOwned
deriving DecidableEq, Repr

/-- `LeafSplitPlan::from_node`: the non-fence entries are split at
the midpoint; the pivot is the prefixed key of the first entry of
the right half.  (The source asserts at least one non-fence entry.) -/
def LeafSplitPlan.fromNode (meta : Node) : LeafSplitPlan :=
  let p := meta.nodePfx
  let live := meta.slots.filter (fun s => !s.fence)
  let moveStart := live.length / 2
  let pivotEntry := live.getD moveStart dfltSlot
  { pfx := p,
    pivotKey := p ++ pivotEntry.key,
    leftEntries := (live.take moveStart).map (fun s => ⟨p ++ s.key, s.val⟩),
    rightEntries := (live.drop moveStart).map (fun s => ⟨p ++ s.key, s.val⟩) }

/-- `LeafSplitPlan::apply` (`page_op.rs` lines 82–106): reset each
side's user entries — keeping that side's *existing* fences — and
replay the halves. -/
def LeafSplitPlan.apply (plan : LeafSplitPlan) (left right : Node) :
    Except Node.InsufficientSpace (Node × Node × LeafSplitOutcome) :=
  match (left.resetUserEntries).replayEntries
      (plan.leftEntries.map (fun e => (e.key, e.value))) with
  | .error e => .error e
  | .ok left2 =>
    match (right.resetUserEntries).replayEntries
        (plan.rightEntries.map (fun e => (e.key, e.value))) with
    | .error e => .error e
    | .ok right2 =>
      .ok (left2, right2,
        ⟨plan.pivotKey, plan.leftEntries.length, plan.rightEntries.length⟩)

/-! ## Inner B+-tree nodes (`src/btree.rs`) -/

inductive QSError
  | PageLockFail
  | OLCRetriesExceeded
  | CacheExhausted
  | SplitFailed
  | NodeFull
  | ParentChildMissing
  | TreeFull
  | KeyTooLarge
deriving DecidableEq, Repr

def MAX_KEY_LENGTH : Nat := 64
def INLINE_BUFFER_LEN : Nat := 4072
def LEAF_CHILD_BYTES : Nat := 6

/-- An inner node: the packed slot/heap layout is abstracted to the
entry list, with `count` and `alloc_idx` kept so that the space
arithmetic of the source is exact (`size_of::<BPKVMeta>() = 4`). -/
structure BPNode where
  count : Nat
  allocIdx : Nat
  lowest : Nat
  entries : List (List Nat × Nat)
deriving DecidableEq, Repr

def BPNode.blank : BPNode :=
  ⟨0, INLINE_BUFFER_LEN - 1, 2 ^ 64 - 1, []⟩

/-- `space_left = alloc_idx - count * size_of::<BPKVMeta>() + 1`
(the source's usize arithmetic never underflows for a node kept
within its 4072-byte buffer). -/
def BPNode.spaceLeft (n : BPNode) : Nat :=
  n.allocIdx - 4 * n.count + 1

/-- `BPNode::append_leaf_entry` (`btree.rs` lines 555–590): reject a
key longer than `MAX_KEY_LENGTH` with `KeyTooLarge`, then check
space (`NodeFull`), then store the key and 48-bit child pointer. -/
def BPNode.appendLeafEntry (n : BPNode) (key : List Nat) (child : Nat) :
    Except QSError BPNode :=
  if key.length > MAX_KEY_LENGTH then .error .KeyTooLarge
  else
    let needed := key.length + LEAF_CHILD_BYTES
    if n.spaceLeft < needed + 4 then .error .NodeFull
    else if needed > n.allocIdx then .error .NodeFull
    else
      .ok { count := n.count + 1,
            allocIdx := n.allocIdx - needed,
            lowest := n.lowest,
            entries := n.entries ++ [(key, child % 2 ^ 48)] }

/-! ## Transaction lifecycle (`QuickStepTx`, `src/lib.rs`)

Page-level effects of undo replay are recorded as the ordered list
of applied undo actions; `wal` records the appended marker records.
`wal_entry_kind` is assigned `Redo` at `tx()` and never changed, so
the markers carry `Redo`. -/

inductive UndoAction
  | Restore : Nat → List Nat → List Nat → UndoAction
  | Remove : Nat → List Nat → UndoAction
deriving DecidableEq, Repr

inductive TxState
  | Active
  | Committed
  | Aborted
deriving DecidableEq, Repr

structure TxLife where
  state : TxState
  txnId : Nat
  undoLog : List UndoAction
  wal : List WalRecord
  applied : List UndoAction
deriving DecidableEq, Repr

def txnMarkerRecord (m : WalTxnMarker) (k : WalEntryKind) (txnId : Nat) : WalRecord :=
  ⟨TXN_META_PAGE_ID, [], [], [], k, txnId, .TxnMarker m⟩

/-- `commit_in_place` (`lib.rs` lines 599–609). -/
def TxLife.commitInPlace (t : TxLife) : TxLife :=
  if t.state ≠ TxState.Active then t
  else
    { t with wal := t.wal ++ [txnMarkerRecord .Commit .Redo t.txnId],
             undoLog := [],
             state := .Committed }

/-- `abort_in_place` (`lib.rs` lines 611–623): the undo log is
applied in reverse (popped from the end), then one `Abort` marker is
appended. -/
def TxLife.abortInPlace (t : TxLife) : TxLife :=
  if t.state ≠ TxState.Active then t
  else
    { t with applied := t.applied ++ t.undoLog.reverse,
             wal := t.wal ++ [txnMarkerRecord .Abort .Redo t.txnId],
             undoLog := [],
             state := .Aborted }

/-- `Drop for QuickStepTx` (`lib.rs` lines 73–79). -/
def TxLife.dropTx (t : TxLife) : TxLife :=
  if t.state = TxState.Active then t.abortInPlace else t

/-! ## The delete path (`QuickStepTx::delete`, `lib.rs` 1424–1482)

The leaf-local part, after the target page has been promoted to a
mini-page: look up the value, tombstone the slot, journal the redo
tombstone and the undo put, and push the undo action.  The trailing
checkpoint / auto-merge maintenance runs only after a successful
tombstone and is outside this model. -/

structure DeleteCtx where
  node : Node
  wal : List WalRecord
  undoLog : List UndoAction
deriving DecidableEq, Repr

def deleteCore (pageId txnId : Nat) (st : DeleteCtx) (key : List Nat) :
    Bool × DeleteCtx :=
  match st.node.get key with
  | none => (false, st)
  | some prev =>
    let marked := st.node.markTombstone key
    if !marked.1 then (false, { st with node := marked.2 })
    else
      let node' := marked.2
      let fb := node'.fenceBounds
      (true,
       { node := node',
         wal := st.wal ++
           [⟨pageId, key, fb.1, fb.2, .Redo, txnId, .Tombstone⟩,
            ⟨pageId, key, fb.1, fb.2, .Undo, txnId, .Put prev⟩],
         undoLog := st.undoLog ++ [.Restore pageId key prev] })

def c2Records : List WalRecord :=
  [⟨TXN_META_PAGE_ID, [], [], [], .Redo, 5, .TxnMarker .Begin⟩,
   ⟨0, [97], [0], [255], .Redo, 5, .Put [9]⟩]

/-! ## Claim C1 — tombstoned slots and `get` -/

/-- A leaf with sentinel fences and one slot of key `0x61`, value
`0x01`, record type `TOMBSTONE`. -/
def tombNode : Node :=
  ⟨4096, [⟨[0], [], .Cache, true, true, 4094, 0⟩,
          ⟨[97], [1], .Tombstone, false, true, 4092, 97 * 256⟩,
          ⟨[255], [], .Cache, true, true, 4095, 0⟩]⟩

/-! ## Claim C3 — fences after a leaf split -/

/-- A leaf with sentinel fences `0x00`/`0xFF` and two user entries
`0x61 ↦ 0x01` and `0x62 ↦ 0x02`. -/
def splitNodeC3 : Node :=
  ⟨4096, [⟨[0], [], .Cache, true, true, 4094, 0⟩,
          ⟨[97], [1], .Insert, false, true, 4090, 97 * 256⟩,
          ⟨[98], [2], .Insert, false, true, 4086, 98 * 256⟩,
          ⟨[255], [], .Cache, true, true, 4095, 0⟩]⟩

/-! ## Claim C6 — `checkpoint_len` versus the file length -/

/-- A state reached from a fresh WAL by appending one record for
page 9, one for page 5, then checkpointing page 5: its
`checkpoint_len` is `32` plus the bytes of page 9's rewritten
group. -/
def walC6s2 : WalState :=
  (((WalState.mk 32 [] 32).appendRecord ⟨9, [98], [0], [255], .Redo, 1, .Put [1]⟩
      ).appendRecord ⟨5, [97], [0], [255], .Redo, 1, .Put [2]⟩
    ).checkpointPage 5

def walC6s0 : WalState := ⟨32, [], 32⟩

def walC6acts : List WalAction :=
  [WalAction.append ⟨9, [98], [0], [255], .Redo, 1, .Put [1]⟩,
   WalAction.checkpoint 9, WalAction.clear]

/-! ## Claim C8 — `MAX_KEY_LENGTH` boundaries -/

/-- A fresh leaf with sentinel fences. -/
def c8Leaf : Node := (Node.mk 4096 []).installFences [0] [255]

/-- A leaf holding only the key `0x61`. -/
def c9Node : Node :=
  ⟨4096, [⟨[0], [], .Cache, true, true, 4094, 0⟩,
          ⟨[97], [1], .Insert, false, true, 4092, 97 * 256⟩,
          ⟨[255], [], .Cache, true, true, 4095, 0⟩]⟩

/-- Representability of a record as the Rust types bound it: ids fit
in `u64`, field lengths fit in the `u32` length prefabs of the file
format, and a marker record has the empty key and fences that
`append_txn_marker` gives it (the serialiser does not write those
fields for markers). -/
def WFRecord (r : WalRecord) : Prop :=
  r.pageId < 2 ^ 64 ∧ r.txnId < 2 ^ 64 ∧
  r.key.length < 2 ^ 32 ∧ r.lowerFence.length < 2 ^ 32 ∧ r.upperFence.length < 2 ^ 32 ∧
  (match r.op with
   | .Put v => v.length < 2 ^ 32
   | .Tombstone => True
   | .TxnMarker _ => r.key = [] ∧ r.lowerFence = [] ∧ r.upperFence = [])

/-- The byte image that a sequence of `append_record` calls leaves
after the manifest: one single-record group per append. -/
def serializeAppends (rs : List WalRecord) : List Nat :=
  (rs.map (fun r => writeGroup r.pageId [r])).flatten

def c7Records : List WalRecord :=
  [⟨7, [107, 1], [0], [127], .Redo, 1, .Put [5, 6]⟩,
   ⟨7, [107, 2], [16], [128], .Undo, 1, .Tombstone⟩,
   ⟨TXN_META_PAGE_ID, [], [], [], .Redo, 3, .TxnMarker .Commit⟩]

def c5Records : List WalRecord :=
  [⟨4, [99], [0], [255], .Redo, 2, .Put [8]⟩]

/-- The shape invariant of a leaf under maintenance: a lower-fence
slot, user slots sorted strictly by stored key suffix and carrying
the metadata that `try_put_with_suffix` installs, and an upper-fence
slot.  `installFences` establishes it with no user slots, and every
successful insert preserves it. -/
structure GoodLeaf (n : Node) (lf uf : Slot) (us : List Slot) : Prop where
  shape : n.slots = lf :: (us ++ [uf])
  lfFence : lf.fence = true
  ufFence : uf.fence = true
  usFence : ∀ s ∈ us, s.fence = false
  usLa : ∀ s ∈ us, s.lookahead = getLookahead s.key
  usBytes : ∀ s ∈ us, ∀ b ∈ s.key, b < 256
  sorted : us.Pairwise (fun a b => cmpBytes a.key b.key = Ordering.lt)

def c4Entries : List (List Nat × List Nat) :=
  [([98, 1], [5]), ([98, 0], [6])]

def c4Start : Node := (Node.mk 4096 []).resetUserEntriesWithFences [97] [99]

def c4Result : Node :=
  ⟨4096, [⟨[97], [], .Cache, true, true, 4094, 0⟩,
          ⟨[98, 0], [6], .Insert, false, true, 4088, 25088⟩,
          ⟨[98, 1], [5], .Insert, false, true, 4091, 25089⟩,
          ⟨[99], [], .Cache, true, true, 4095, 0⟩]⟩

theorem cmpBytes_eq_iff : ∀ {x y : List Nat}, cmpBytes x y = .eq ↔ x = y := by
  intro x
  induction x with
  | nil => intro y; cases y <;> simp [cmpBytes]
  | cons a as ih =>
    intro y
    cases y with
    | nil => simp [cmpBytes]
    | cons b bs =>
      simp only [cmpBytes]
      rcases h : compare a b with h' | h' | h'
      · simp_all [Nat.compare_eq_lt.mp h, Nat.ne_of_lt (Nat.compare_eq_lt.mp h)]
      · have hab : a = b := Nat.compare_eq_eq.mp h
        subst hab
        simp [ih]
      · have : b < a := Nat.compare_eq_gt.mp h
        simp_all [Nat.ne_of_gt this]

theorem cmpBytes_refl (x : List Nat) : cmpBytes x x = .eq :=
  cmpBytes_eq_iff.mpr rfl

/-- `cmpBytes` swaps under argument exchange. -/
theorem cmpBytes_swap : ∀ (x y : List Nat), cmpBytes x y = (cmpBytes y x).swap := by
  intro x
  induction x with
  | nil => intro y; cases y <;> simp [cmpBytes, Ordering.swap]
  | cons a as ih =>
    intro y
    cases y with
    | nil => simp [cmpBytes, Ordering.swap]
    | cons b bs =>
      simp only [cmpBytes]
      rcases h : compare a b with h' | h' | h'
      · have := Nat.compare_eq_lt.mp h
        rw [Nat.compare_eq_gt.mpr this]
        rfl
      · have hab : a = b := Nat.compare_eq_eq.mp h
        subst hab
        rw [Nat.compare_eq_eq.mpr rfl]
        exact ih bs
      · have := Nat.compare_eq_gt.mp h
        rw [Nat.compare_eq_lt.mpr this]
        rfl

theorem cmpBytes_trans_lt : ∀ {x y z : List Nat},
    cmpBytes x y = .lt → cmpBytes y z = .lt → cmpBytes x z = .lt := by
  intro x
  induction x with
  | nil =>
    intro y z hxy hyz
    cases y with
    | nil => simpa [cmpBytes] using hyz
    | cons b bs =>
      cases z with
      | nil => simp [cmpBytes] at hyz
      | cons c cs => simp [cmpBytes]
  | cons a as ih =>
    intro y z hxy hyz
    cases y with
    | nil => simp [cmpBytes] at hxy
    | cons b bs =>
      cases z with
      | nil => simp [cmpBytes] at hyz
      | cons c cs =>
        simp only [cmpBytes] at hxy hyz ⊢
        rcases hab : compare a b with h1 | h1 | h1 <;> rw [hab] at hxy <;>
          rcases hbc : compare b c with h2 | h2 | h2 <;> rw [hbc] at hyz <;>
            simp_all
        · have : a < c := lt_trans (Nat.compare_eq_lt.mp hab) (Nat.compare_eq_lt.mp hbc)
          rw [Nat.compare_eq_lt.mpr this]
        · have hbceq : b = c := Nat.compare_eq_eq.mp hbc
          subst hbceq
          rw [hab]
        · have habeq : a = b := Nat.compare_eq_eq.mp hab
          subst habeq
          rw [hbc]
        · have habeq : a = b := Nat.compare_eq_eq.mp hab
          subst habeq
          rw [hbc]
          exact ih hxy hyz

/-- Dropping then re-appending the common prefab is the identity on
keys that start with it. -/
theorem append_take_drop (p k : List Nat) (h : k.take p.length = p) :
    p ++ k.drop p.length = k := by
  conv_rhs => rw [← List.take_append_drop p.length k]
  rw [h]

theorem cmpBytes_append_left : ∀ (p a b : List Nat),
    cmpBytes (p ++ a) (p ++ b) = cmpBytes a b := by
  intro p
  induction p with
  | nil => intro a b; simp
  | cons x xs ih =>
    intro a b
    simp only [List.cons_append, cmpBytes, Nat.compare_eq_eq.mpr rfl]
    exact ih a b

theorem leBytes_length : ∀ (w v : Nat), (leBytes w v).length = w := by
  intro w
  induction w with
  | zero => intro v; rfl
  | succ w ih => intro v; simp [leBytes, ih]

theorem leVal_leBytes : ∀ (w v : Nat), v < 256 ^ w → leVal (leBytes w v) = v := by
  intro w
  induction w with
  | zero => intro v hv; interval_cases v; rfl
  | succ w ih =>
    intro v hv
    have hdiv : v / 256 < 256 ^ w := by
      rw [Nat.div_lt_iff_lt_mul (by norm_num)]
      calc v < 256 ^ (w + 1) := hv
        _ = 256 ^ w * 256 := by ring
    simp only [leBytes, leVal, ih (v / 256) hdiv]
    omega

theorem leBytes_lt : ∀ (w v : Nat), ∀ b ∈ leBytes w v, b < 256 := by
  intro w
  induction w with
  | zero => intro v b hb; simp [leBytes] at hb
  | succ w ih =>
    intro v b hb
    simp only [leBytes, List.mem_cons] at hb
    rcases hb with h | h
    · omega
    · exact ih _ _ h

theorem parseRecord_length_le (pageId : Nat) (bytes : List Nat) (r : WalRecord)
    (rest : List Nat) (h : parseRecord pageId bytes = some (r, rest)) :
    rest.length ≤ bytes.length := by
  match bytes with
  | [] => simp [parseRecord] at h
  | rt :: tl =>
    simp only [parseRecord] at h
    by_cases h9 : tl.length < 1 + 9 - 1
    · simp [h9] at h
    · simp only [h9, if_false] at h
      split at h
      · split at h
        · exact absurd h (by simp)
        · split at h
          · exact absurd h (by simp)
          · simp only [Option.some.injEq, Prod.mk.injEq] at h
            have := h.2
            subst this
            simp only [List.length_drop, List.length_cons]
            omega
      · split at h
        · split at h
          · exact absurd h (by simp)
          · split at h
            · exact absurd h (by simp)
            · simp only [Option.some.injEq, Prod.mk.injEq] at h
              have := h.2
              subst this
              simp only [List.length_drop, List.length_cons]
              omega
        · split at h <;>
            [skip; split at h] <;>
            [skip; skip; split at h]
          · simp only [Option.some.injEq, Prod.mk.injEq] at h
            have := h.2
            subst this
            simp only [List.length_drop, List.length_cons]
            omega
          · simp only [Option.some.injEq, Prod.mk.injEq] at h
            have := h.2
            subst this
            simp only [List.length_drop, List.length_cons]
            omega
          · simp only [Option.some.injEq, Prod.mk.injEq] at h
            have := h.2
            subst this
            simp only [List.length_drop, List.length_cons]
            omega
          · exact absurd h (by simp)

theorem parseRecordsLoop_length_le (pageId : Nat) :
    ∀ (c : Nat) (bytes : List Nat),
    (parseRecordsLoop pageId c bytes).2.1.length ≤ bytes.length := by
  intro c
  induction c with
  | zero => intro bytes; simp [parseRecordsLoop]
  | succ c ih =>
    intro bytes
    simp only [parseRecordsLoop]
    match h : parseRecord pageId bytes with
    | none => simp
    | some (r, rest) =>
      have h1 := parseRecord_length_le pageId bytes r rest h
      have h2 := ih rest
      simp only []
      calc (parseRecordsLoop pageId c rest).2.1.length ≤ rest.length := h2
        _ ≤ bytes.length := h1

theorem finalMarker_of_noMarker (tm : List WalRecord) (t : Nat)
    (h : ∀ r ∈ tm, r.op.isMarker = false) : finalMarker tm t = none := by
  have hgen : ∀ acc, tm.foldl
      (fun acc r =>
        match r.op with
        | .TxnMarker m => if r.txnId = t then some m else acc
        | _ => acc) acc = acc := by
    induction tm with
    | nil => intro acc; rfl
    | cons r rest ih =>
      intro acc
      have hr := h r (List.mem_cons_self r rest)
      have hrest : ∀ r' ∈ rest, r'.op.isMarker = false :=
        fun r' hm => h r' (List.mem_cons_of_mem r hm)
      simp only [List.foldl_cons]
      cases hop : r.op with
      | TxnMarker m => rw [hop] at hr; simp [WalOp.isMarker] at hr
      | Put v =>
        have := ih hrest
        simpa using this acc
      | Tombstone =>
        have := ih hrest
        simpa using this acc
  exact hgen none

theorem replayFilterActive_of_finalMarker (tm : List WalRecord) (t : Nat)
    (m : WalTxnMarker) (hm : finalMarker tm t = some m) :
    replayFilterActive tm = true := by
  unfold replayFilterActive
  split
  · rename_i hemp
    rw [List.isEmpty_iff] at hemp
    subst hemp
    simp [finalMarker] at hm
  · split
    · rename_i hall
      rw [List.all_eq_true] at hall
      have : finalMarker tm t = none :=
        finalMarker_of_noMarker tm t (fun r hr => by simpa using hall r hr)
      rw [this] at hm
      exact absurd hm (by simp)
    · rfl

/-- A record of a transaction whose final marker is not `Commit` is
skipped by the replay loop. -/
theorem replayStep_skip (tm : List WalRecord) (acc : ReplayAcc) (r : WalRecord)
    (m : WalTxnMarker) (hm : finalMarker tm r.txnId = some m)
    (hnc : m ≠ WalTxnMarker.Commit) :
    replayStep tm acc r = acc := by
  unfold replayStep
  split
  · rfl
  · rw [if_pos]
    constructor
    · exact replayFilterActive_of_finalMarker tm r.txnId m hm
    · unfold isCommitted
      rw [hm]
      simpa using hnc

theorem foldl_filter_of_skip {α β : Type} (step : β → α → β) (pred : α → Bool)
    (l : List α) (h : ∀ x ∈ l, pred x = false → ∀ acc, step acc x = acc) :
    ∀ acc, l.foldl step acc = (l.filter pred).foldl step acc := by
  induction l with
  | nil => intro acc; rfl
  | cons x xs ih =>
    intro acc
    have hxs : ∀ y ∈ xs, pred y = false → ∀ acc, step acc y = acc :=
      fun y hy => h y (List.mem_cons_of_mem x hy)
    by_cases hx : pred x = true
    · simp only [List.foldl_cons, List.filter_cons, hx, if_true]
      exact ih hxs (step acc x)
    · rw [Bool.not_eq_true] at hx
      have hstep := h x (List.mem_cons_self x xs) hx acc
      simp only [List.foldl_cons, List.filter_cons, hx, Bool.false_eq_true, if_false, hstep]
      exact ih hxs acc

/-! ## Claim C2 — commit filtering during replay -/

/-- Claim C2: during WAL replay, every `PUT` or `TOMBSTONE` record
of a transaction whose final `TxnMarker` is not `Commit` is skipped
(the replay step leaves the accumulator unchanged on every record of
that transaction), and consequently the per-page replay outcome —
fences and entry map, hence what `get` sees after restart — is the
same as if that transaction's records were absent. -/
theorem C2_uncommitted_writes_skipped (records : List WalRecord) (p t : Nat)
    (m : WalTxnMarker) (hm : finalMarker (txnMetaOf records) t = some m)
    (hnc : m ≠ WalTxnMarker.Commit) :
    (∀ (acc : ReplayAcc) (r : WalRecord), r.txnId = t →
        replayStep (txnMetaOf records) acc r = acc) ∧
    pageReplay records p =
      ((records.filter (fun r => r.pageId = p)).filter (fun r => r.txnId ≠ t)).foldl
        (replayStep (txnMetaOf records)) ⟨none, none, []⟩ := by
  have hskip : ∀ (acc : ReplayAcc) (r : WalRecord), r.txnId = t →
      replayStep (txnMetaOf records) acc r = acc := by
    intro acc r hr
    exact replayStep_skip _ acc r m (by rw [hr]; exact hm) hnc
  refine ⟨hskip, ?_⟩
  unfold pageReplay
  exact foldl_filter_of_skip _ (fun r => r.txnId ≠ t) _
    (fun r _ hf acc => hskip acc r (by simpa using hf)) _

theorem C2_witness :
    (finalMarker (txnMetaOf c2Records) 5 = some WalTxnMarker.Begin ∧
      WalTxnMarker.Begin ≠ WalTxnMarker.Commit) ∧
    ((∀ (acc : ReplayAcc) (r : WalRecord), r.txnId = 5 →
        replayStep (txnMetaOf c2Records) acc r = acc) ∧
     pageReplay c2Records 0 =
       ((c2Records.filter (fun r => r.pageId = 0)).filter (fun r => r.txnId ≠ 5)).foldl
         (replayStep (txnMetaOf c2Records)) ⟨none, none, []⟩) :=
  ⟨⟨by decide, by decide⟩,
   C2_uncommitted_writes_skipped c2Records 0 5 WalTxnMarker.Begin (by decide) (by decide)⟩

/-- Claim C1: the spec (and the doc table in `types.rs`) say that a
slot of type `TOMBSTONE` or `PHANTOM` has `exists == false` so that
`get` returns `None` on it.  In the code, `KVRecordType::exists`
returns `true` in both of its match arms, so it is `true` for all
four record types, and `get` on a tombstoned slot returns the stored
value: evaluated here on a leaf holding key `0x61` as a `TOMBSTONE`,
`get` yields `Some 0x01` where the claim requires `None`. -/
theorem C1_tombstone_get_returns_value :
    (∀ t : KVRecordType, t.existsFlag = true) ∧
    (tombNode.getKvMeta 1).typ = KVRecordType.Tombstone ∧
    tombNode.get [97] = some [1] :=
  ⟨fun t => by cases t <;> rfl, rfl, by decide⟩

/-- Claim C3: after `LeafSplitPlan::from_node` and
`LeafSplitPlan::apply` (the right node being the byte copy of the
left, as `apply_leaf_split` arranges), the claim requires
`fence_upper(L) = p` and `fence_lower(R) = p`.  Evaluating the code
on a concrete leaf: the pivot is `0x62`, yet both halves keep the
pre-split fences `(0x00, 0xFF)`, because `apply` resets each side
with `reset_user_entries`, which reinstalls that side's *existing*
fences and never installs the pivot.  The repository's own test
`split_children_receive_parent_bounds` asserts the pivot fences. -/
theorem C3_split_keeps_old_fences :
    (LeafSplitPlan.fromNode splitNodeC3).pivotKey = [98] ∧
    ((LeafSplitPlan.fromNode splitNodeC3).apply splitNodeC3 splitNodeC3).toOption.map
        (fun x => (x.1.fenceBounds, x.2.1.fenceBounds, x.2.2.pivotKey)) =
      some ((([0], [255])), ([0], [255]), [98]) ∧
    ([0], [255]).2 ≠ ([98] : List Nat) ∧
    ([0], [255]).1 ≠ ([98] : List Nat) :=
  ⟨by decide, by decide, by decide, by decide⟩

/-- Claim C6, counterexample to the second conjunct: a further
`checkpoint_page` — not a recovery truncation — *decreases*
`checkpoint_len` (from `32 + group bytes of page 9` back to `32`),
because `checkpoint_page` recomputes `checkpoint_len` from the bytes
that remain after dropping the target page's records. -/
theorem C6_checkpoint_can_decrease :
    (walC6s2.checkpointPage 9).checkpointLen < walC6s2.checkpointLen := by decide

theorem walState_inv_step (s : WalState) (a : WalAction)
    (h : s.checkpointLen ≤ s.fileLen) :
    (s.applyAction a).checkpointLen ≤ (s.applyAction a).fileLen := by
  cases a with
  | append r =>
    simp only [WalState.applyAction, WalState.appendRecord]
    omega
  | checkpoint p =>
    simp only [WalState.applyAction, WalState.checkpointPage]
    split
    · exact h
    · simp
  | clear => simp [WalState.applyAction, WalState.clear]

theorem walState_inv_run (s : WalState) (actions : List WalAction)
    (h : s.checkpointLen ≤ s.fileLen) :
    (s.run actions).checkpointLen ≤ (s.run actions).fileLen := by
  induction actions generalizing s with
  | nil => exact h
  | cons a rest ih =>
    exact ih (s.applyAction a) (walState_inv_step s a h)

/-- Claim C6, amended: starting from any state with
`checkpoint_len ≤ file_len` (as after `open`), every point of every
sequence of `append_record` / `checkpoint_page` / `clear` operations
keeps `checkpoint_len ≤ file_len`; and `append_record` never changes
`checkpoint_len`.  (`checkpoint_page` and `clear` may decrease it,
as `C6_checkpoint_can_decrease` shows.) -/
theorem C6_checkpoint_len_le_file_len (s : WalState) (actions : List WalAction)
    (h : s.checkpointLen ≤ s.fileLen) :
    (∀ k, (s.run (actions.take k)).checkpointLen ≤ (s.run (actions.take k)).fileLen) ∧
    (∀ r, (s.appendRecord r).checkpointLen = s.checkpointLen) :=
  ⟨fun _ => walState_inv_run s _ h, fun _ => rfl⟩

theorem C6_witness :
    walC6s0.checkpointLen ≤ walC6s0.fileLen ∧
    ((∀ k, (walC6s0.run (walC6acts.take k)).checkpointLen ≤
        (walC6s0.run (walC6acts.take k)).fileLen) ∧
     (∀ r, (walC6s0.appendRecord r).checkpointLen = walC6s0.checkpointLen)) :=
  ⟨by decide, C6_checkpoint_len_le_file_len walC6s0 walC6acts (by decide)⟩

/-- Claim C8, counterexample: the claim says *every* operation with
a key of length `MAX_KEY_LENGTH + 1` is rejected with `KeyTooLarge`.
But the leaf put path (`QuickStepTx::put` →
`WriteGuardWrapper::try_put` → `NodeMeta::try_put`) performs no key
length check at all: a put with a 65-byte key into a leaf with room
succeeds. -/
theorem C8_leaf_put_accepts_oversized_key :
    (List.replicate 65 97).length = MAX_KEY_LENGTH + 1 ∧
    (c8Leaf.tryPut (List.replicate 65 97) [7]).isOk = true := by
  constructor
  · rfl
  · decide

/-- Claim C8, amended: the length check lives in the inner-node
pivot insertion `BPNode::append_leaf_entry`: a pivot key of length
exactly `MAX_KEY_LENGTH` is never rejected with `KeyTooLarge`
(it can only fail as `NodeFull`), and any key of length
`MAX_KEY_LENGTH + 1` is rejected with `KeyTooLarge`. -/
theorem C8_append_leaf_entry_boundary (n : BPNode) (key : List Nat) (child : Nat) :
    (key.length = MAX_KEY_LENGTH →
      n.appendLeafEntry key child ≠ .error QSError.KeyTooLarge) ∧
    (key.length = MAX_KEY_LENGTH + 1 →
      n.appendLeafEntry key child = .error QSError.KeyTooLarge) := by
  constructor
  · intro hlen
    unfold BPNode.appendLeafEntry
    rw [if_neg (by omega)]
    dsimp only
    split
    · simp
    · split <;> simp
  · intro hlen
    unfold BPNode.appendLeafEntry
    rw [if_pos (by omega)]

theorem C8_witness :
    ((List.replicate 64 97).length = MAX_KEY_LENGTH ∧
      BPNode.blank.appendLeafEntry (List.replicate 64 97) 3 ≠
        .error QSError.KeyTooLarge) ∧
    ((List.replicate 65 98).length = MAX_KEY_LENGTH + 1 ∧
      BPNode.blank.appendLeafEntry (List.replicate 65 98) 3 =
        .error QSError.KeyTooLarge) :=
  ⟨⟨by decide, (C8_append_leaf_entry_boundary BPNode.blank (List.replicate 64 97) 3).1
      (by decide)⟩,
   ⟨by decide, (C8_append_leaf_entry_boundary BPNode.blank (List.replicate 65 98) 3).2
      (by decide)⟩⟩

/-! ## Claim C9 — delete of an absent key -/

/-- Claim C9: when the target leaf's `get(k)` yields no value,
`QuickStepTx::delete(k)` returns `Ok(false)` before journalling
anything: the WAL record list and the undo log are unchanged. -/
theorem C9_delete_absent_key (pageId txnId : Nat) (st : DeleteCtx) (key : List Nat)
    (h : st.node.get key = none) :
    deleteCore pageId txnId st key = (false, st) := by
  unfold deleteCore
  rw [h]

theorem C9_witness :
    (c9Node.get [99] = none) ∧
    deleteCore 0 1 ⟨c9Node, [], []⟩ [99] = (false, ⟨c9Node, [], []⟩) :=
  ⟨by decide, C9_delete_absent_key 0 1 ⟨c9Node, [], []⟩ [99] (by decide)⟩

/-! ## Claim C10 — at most one terminal marker per transaction -/

/-- Claim C10: `commit_in_place` and `abort_in_place` leave the
transaction in a non-`Active` state; any of commit, abort or drop on
a non-`Active` transaction is the identity (no WAL marker appended,
no undo action applied); and dropping a still-`Active` transaction
appends exactly one `Abort` marker after replaying the undo log in
reverse. -/
theorem C10_terminal_marker_once (t : TxLife) :
    ((t.commitInPlace).state ≠ TxState.Active) ∧
    ((t.abortInPlace).state ≠ TxState.Active) ∧
    (∀ s : TxLife, s.state ≠ TxState.Active →
      s.commitInPlace = s ∧ s.abortInPlace = s ∧ s.dropTx = s) ∧
    (t.state = TxState.Active →
      (t.dropTx).wal = t.wal ++ [txnMarkerRecord .Abort .Redo t.txnId] ∧
      (t.dropTx).applied = t.applied ++ t.undoLog.reverse ∧
      (t.dropTx).state = TxState.Aborted) := by
  refine ⟨?_, ?_, ?_, ?_⟩
  · unfold TxLife.commitInPlace
    split <;> simp_all
  · unfold TxLife.abortInPlace
    split <;> simp_all
  · intro s hs
    refine ⟨?_, ?_, ?_⟩
    · unfold TxLife.commitInPlace
      rw [if_pos hs]
    · unfold TxLife.abortInPlace
      rw [if_pos hs]
    · unfold TxLife.dropTx
      rw [if_neg (by simpa using hs)]
  · intro ha
    unfold TxLife.dropTx TxLife.abortInPlace
    rw [if_pos ha, if_neg (by simp [ha])]
    exact ⟨rfl, rfl, rfl⟩

theorem take_chunk (w : Nat) (xs ys : List Nat) (h : xs.length = w) :
    (xs ++ ys).take w = xs := by
  rw [← h]
  exact List.take_left xs ys

theorem drop_chunk (w : Nat) (xs ys : List Nat) (h : xs.length = w) :
    (xs ++ ys).drop w = ys := by
  rw [← h]
  exact List.drop_left xs ys

theorem fromByte_asByte (k : WalEntryKind) : WalEntryKind.fromByte k.asByte = k := by
  cases k <;> rfl

theorem drop8_chunks (xs ys zs : List Nat) (hx : xs.length = 4) (hy : ys.length = 4) :
    (xs ++ (ys ++ zs)).drop 8 = zs := by
  rw [show (8 : Nat) = 4 + 4 from rfl, ← List.drop_drop,
    drop_chunk 4 _ _ hx, drop_chunk 4 _ _ hy]

theorem drop12_chunks (xs ys zs ws : List Nat)
    (hx : xs.length = 4) (hy : ys.length = 4) (hz : zs.length = 4) :
    (xs ++ (ys ++ (zs ++ ws))).drop 12 = ws := by
  rw [show (12 : Nat) = 4 + 8 from rfl, ← List.drop_drop,
    drop_chunk 4 _ _ hx, drop8_chunks ys zs ws hy hz]

theorem drop16_chunks (xs ys zs ws vs : List Nat)
    (hx : xs.length = 4) (hy : ys.length = 4) (hz : zs.length = 4) (hw : ws.length = 4) :
    (xs ++ (ys ++ (zs ++ (ws ++ vs)))).drop 16 = vs := by
  rw [show (16 : Nat) = 4 + 12 from rfl, ← List.drop_drop,
    drop_chunk 4 _ _ hx, drop12_chunks ys zs ws vs hy hz hw]

theorem leVal_leBytes8 (v : Nat) (h : v < 2 ^ 64) : leVal (leBytes 8 v) = v := by
  refine leVal_leBytes 8 v ?_
  have h8 : (256 : Nat) ^ 8 = 2 ^ 64 := by norm_num
  omega

theorem leVal_leBytes4 (v : Nat) (h : v < 2 ^ 32) : leVal (leBytes 4 v) = v := by
  refine leVal_leBytes 4 v ?_
  have h4 : (256 : Nat) ^ 4 = 2 ^ 32 := by norm_num
  omega

/-- Parsing a serialised record consumes exactly its payload and
reproduces the record with the group's page id. -/
theorem parseRecord_roundtrip (pid : Nat) (r : WalRecord) (rest : List Nat)
    (hwf : WFRecord r) :
    parseRecord pid (writeRecordPayload r ++ rest) =
      some ({r with pageId := pid}, rest) := by
  obtain ⟨hpid, htxn, hklen, hllen, hulen, hop⟩ := hwf
  cases hc : r.op with
  | Put v =>
    rw [hc] at hop
    simp only [writeRecordPayload, hc, List.cons_append, List.append_assoc, parseRecord]
    rw [if_neg (by simp [leBytes_length])]
    simp only [List.headD_cons, fromByte_asByte, List.drop_succ_cons, take_chunk,
      drop_chunk, drop8_chunks, drop12_chunks, drop16_chunks, List.drop_append,
      Nat.add_assoc, leBytes_length, List.take_left, List.drop_left,
      leVal_leBytes8 r.txnId htxn,
      leVal_leBytes4 r.key.length hklen, leVal_leBytes4 v.length hop,
      leVal_leBytes4 r.lowerFence.length hllen, leVal_leBytes4 r.upperFence.length hulen]
    norm_num
    simp only [List.take_left, List.drop_left, take_chunk, drop_chunk, drop8_chunks,
      drop12_chunks, drop16_chunks, List.drop_append, Nat.add_assoc, leBytes_length,
      leVal_leBytes8 r.txnId htxn, leVal_leBytes4 r.key.length hklen,
      leVal_leBytes4 v.length hop, leVal_leBytes4 r.lowerFence.length hllen,
      leVal_leBytes4 r.upperFence.length hulen, List.headD_cons, List.drop_succ_cons,
      fromByte_asByte]
    exact ⟨by omega, trivial⟩
  | Tombstone =>
    rw [hc] at hop
    simp only [writeRecordPayload, hc, List.cons_append, List.append_assoc, parseRecord]
    rw [if_neg (by simp [leBytes_length])]
    simp only [List.headD_cons, fromByte_asByte, List.drop_succ_cons, take_chunk,
      drop_chunk, drop8_chunks, drop12_chunks, drop16_chunks, List.drop_append,
      Nat.add_assoc, leBytes_length, List.take_left, List.drop_left,
      leVal_leBytes8 r.txnId htxn,
      leVal_leBytes4 r.key.length hklen,
      leVal_leBytes4 r.lowerFence.length hllen, leVal_leBytes4 r.upperFence.length hulen]
    norm_num
    simp only [List.take_left, List.drop_left, take_chunk, drop_chunk, drop8_chunks,
      drop12_chunks, drop16_chunks, List.drop_append, Nat.add_assoc, leBytes_length,
      leVal_leBytes8 r.txnId htxn, leVal_leBytes4 r.key.length hklen,
      leVal_leBytes4 r.lowerFence.length hllen,
      leVal_leBytes4 r.upperFence.length hulen, List.headD_cons, List.drop_succ_cons,
      fromByte_asByte]
    exact ⟨by omega, trivial⟩
  | TxnMarker m =>
    rw [hc] at hop
    obtain ⟨hk, hl, hu⟩ := hop
    cases m <;>
      (simp only [writeRecordPayload, hc, List.cons_append, List.append_assoc,
        WalTxnMarker.toRecordType, parseRecord]
       rw [if_neg (by simp [leBytes_length])]
       simp only [List.headD_cons, fromByte_asByte, List.drop_succ_cons, take_chunk,
         drop_chunk, leBytes_length, List.take_left, List.drop_left,
         leVal_leBytes8 r.txnId htxn]
       norm_num
       simp only [take_chunk, drop_chunk, leBytes_length, List.take_left, List.drop_left,
         leVal_leBytes8 r.txnId htxn, hk, hl, hu]
       exact ⟨trivial, trivial, trivial, trivial⟩)

theorem parseRecordsLoop_single (pid : Nat) (r : WalRecord) (rest : List Nat)
    (hwf : WFRecord r) :
    parseRecordsLoop pid 1 (writeRecordPayload r ++ rest) =
      ([{r with pageId := pid}], rest, true) := by
  simp [parseRecordsLoop, parseRecord_roundtrip pid r rest hwf]

theorem writeGroup_single (pid : Nat) (r : WalRecord) :
    writeGroup pid [r] =
      170 :: (leBytes 8 pid ++ (leBytes 4 1 ++ writeRecordPayload r)) := by
  simp [writeGroup]

theorem writeGroup_single_length (pid : Nat) (r : WalRecord) :
    (writeGroup pid [r]).length = 13 + (writeRecordPayload r).length := by
  rw [writeGroup_single]
  simp [leBytes_length]
  omega

theorem drop12_chunks84 (xs ys zs : List Nat) (hx : xs.length = 8) (hy : ys.length = 4) :
    (xs ++ (ys ++ zs)).drop 12 = zs := by
  rw [show (12 : Nat) = 8 + 4 from rfl, ← List.drop_drop,
    drop_chunk 8 _ _ hx, drop_chunk 4 _ _ hy]

theorem parseGroupsGo_fuel_eq (n : Nat) :
    ∀ (bytes : List Nat) (f1 f2 : Nat), bytes.length ≤ n →
      bytes.length < f1 → bytes.length < f2 →
      parseGroupsGo f1 bytes = parseGroupsGo f2 bytes := by
  induction n with
  | zero =>
    intro bytes f1 f2 hb h1 h2
    cases f1 with
    | zero => omega
    | succ f1 =>
      cases f2 with
      | zero => omega
      | succ f2 =>
        have hlen : bytes.length < 13 := by omega
        simp only [parseGroupsGo, if_pos hlen]
  | succ n ih =>
    intro bytes f1 f2 hb h1 h2
    cases f1 with
    | zero => omega
    | succ f1 =>
      cases f2 with
      | zero => omega
      | succ f2 =>
        simp only [parseGroupsGo]
        by_cases h13 : bytes.length < 13
        · simp [h13]
        · rw [if_neg h13, if_neg h13]
          cases bytes with
          | nil => rfl
          | cons m rest =>
            by_cases hm : m = 170
            · subst hm
              simp only [ne_eq, not_true_eq_false, if_false]
              rcases hp : parseRecordsLoop (leVal (rest.take 8))
                  (leVal ((rest.drop 8).take 4)) (rest.drop 12) with ⟨recs, rem, ok⟩
              simp only []
              cases ok with
              | false => rfl
              | true =>
                have hremle : rem.length ≤ (rest.drop 12).length := by
                  have := parseRecordsLoop_length_le (leVal (rest.take 8))
                    (leVal ((rest.drop 8).take 4)) (rest.drop 12)
                  rw [hp] at this
                  exact this
                simp only [List.length_drop] at hremle
                simp only [List.length_cons] at hb h1 h2 h13
                have : parseGroupsGo f1 rem = parseGroupsGo f2 rem :=
                  ih rem f1 f2 (by omega) (by omega) (by omega)
                rw [this]
            · simp [hm]

/-- One appended single-record group parses off the front: the
record is recovered and `valid_idx` advances past the group. -/
theorem parseGroups_cons_group (r : WalRecord) (rest : List Nat) (hwf : WFRecord r) :
    parseGroups (writeGroup r.pageId [r] ++ rest) =
      (r :: (parseGroups rest).1,
        (writeGroup r.pageId [r]).length + (parseGroups rest).2) := by
  have hpid : r.pageId < 2 ^ 64 := hwf.1
  rw [parseGroups, writeGroup_single, List.cons_append]
  have hlen : (170 :: (leBytes 8 r.pageId ++ (leBytes 4 1 ++ writeRecordPayload r)) ++ rest).length
      = 13 + ((writeRecordPayload r).length + rest.length) := by
    simp [leBytes_length] <;> omega
  rw [List.cons_append] at hlen
  simp only [List.append_assoc] at hlen ⊢
  rw [hlen]
  simp only [parseGroupsGo]
  rw [if_neg (by rw [hlen]; omega)]
  simp only [ne_eq, not_true_eq_false, if_false,
    take_chunk 8 _ _ (leBytes_length 8 _), drop_chunk 8 _ _ (leBytes_length 8 _),
    take_chunk 4 _ _ (leBytes_length 4 _),
    drop12_chunks84 _ _ _ (leBytes_length 8 _) (leBytes_length 4 _),
    leVal_leBytes8 r.pageId hpid, leVal_leBytes4 1 (by norm_num)]
  rw [parseRecordsLoop_single r.pageId r rest hwf]
  simp only [if_true]
  have hrw : parseGroupsGo (13 + ((writeRecordPayload r).length + rest.length)) rest =
      parseGroupsGo (rest.length + 1) rest :=
    parseGroupsGo_fuel_eq rest.length rest _ _ (le_refl _) (by omega) (by omega)
  rw [hlen, hrw]
  simp only [Prod.mk.injEq]
  constructor
  · rfl
  · simp [parseGroups, leBytes_length] <;> omega

theorem parseGroups_serialize (rs : List WalRecord) (junk : List Nat)
    (hwf : ∀ r ∈ rs, WFRecord r) :
    parseGroups (serializeAppends rs ++ junk) =
      (rs ++ (parseGroups junk).1,
        (serializeAppends rs).length + (parseGroups junk).2) := by
  induction rs with
  | nil => simp [serializeAppends]
  | cons r rs ih =>
    have hser : serializeAppends (r :: rs) =
        writeGroup r.pageId [r] ++ serializeAppends rs := by
      simp [serializeAppends]
    rw [hser, List.append_assoc,
      parseGroups_cons_group r _ (hwf r (List.mem_cons_self r rs)),
      ih (fun x hx => hwf x (List.mem_cons_of_mem r hx))]
    simp [List.length_append]
    omega

theorem parseGroups_serialize_nil (rs : List WalRecord)
    (hwf : ∀ r ∈ rs, WFRecord r) :
    parseGroups (serializeAppends rs) = (rs, (serializeAppends rs).length) := by
  have := parseGroups_serialize rs [] hwf
  simpa [parseGroups, parseGroupsGo] using this

theorem manifestBytes_length (cl : Nat) : (manifestBytes cl).length = 32 := by
  simp [manifestBytes, MANIFEST_MAGIC, leBytes_length]

theorem readManifest_wf (cl : Nat) (tail : List Nat) (h32 : 32 ≤ cl) (h64 : cl < 2 ^ 64) :
    readManifest (manifestBytes cl ++ tail) = (cl, manifestBytes cl ++ tail) := by
  unfold readManifest
  rw [if_neg (by simp [manifestBytes_length, List.length_append] <;> omega)]
  rw [take_chunk 32 _ _ (manifestBytes_length cl)]
  have hmb : manifestBytes cl =
      MANIFEST_MAGIC ++ (leBytes 4 1 ++ (leBytes 8 cl ++ List.replicate 16 0)) := by
    simp [manifestBytes]
  rw [hmb]
  rw [if_neg ?hgood]
  case hgood =>
    simp only [take_chunk 4 _ _ (by rfl : (MANIFEST_MAGIC).length = 4),
      drop8_chunks _ _ _ (by rfl : (MANIFEST_MAGIC).length = 4) (leBytes_length 4 1),
      drop_chunk 4 _ _ (by rfl : (MANIFEST_MAGIC).length = 4),
      take_chunk 4 _ _ (leBytes_length 4 1), leVal_leBytes4 1 (by norm_num)]
    simp
  simp only [drop8_chunks _ _ _ (by rfl : (MANIFEST_MAGIC).length = 4) (leBytes_length 4 1),
    take_chunk 8 _ _ (leBytes_length 8 cl), leVal_leBytes8 cl h64]
  rw [Nat.max_eq_left h32]

/-- Claim C7: a WAL file produced by opening a fresh WAL and running
any sequence of `append_put` / `append_tombstone` /
`append_txn_marker` calls (each appends one single-record group, so
the file is the fresh 32-byte manifest followed by one group per
record) reproduces, on reopen, exactly the same record sequence —
every `page_id`, `kind`, `txn_id`, key, value, and fence bytes, in
order — with no truncation and the manifest's fresh
`checkpoint_len` of 32. -/
theorem C7_wal_roundtrip (rs : List WalRecord) (hwf : ∀ r ∈ rs, WFRecord r) :
    (walOpen (manifestBytes 32 ++ serializeAppends rs)).records = rs ∧
    (walOpen (manifestBytes 32 ++ serializeAppends rs)).fileLen =
      (manifestBytes 32 ++ serializeAppends rs).length ∧
    (walOpen (manifestBytes 32 ++ serializeAppends rs)).checkpointLen = 32 := by
  unfold walOpen
  rw [readManifest_wf 32 _ (le_refl 32) (by norm_num)]
  simp only [drop_chunk 32 _ _ (manifestBytes_length 32),
    parseGroups_serialize_nil rs hwf]
  have hflen : (manifestBytes 32 ++ serializeAppends rs).length =
      32 + (serializeAppends rs).length := by
    simp [manifestBytes_length]
  rw [if_neg (by omega)]
  rw [if_neg (by omega)]
  simp

/-- Claim C5: opening a WAL file consisting of a well-formed
manifest, a run of valid single-record groups, and a malformed tail
(one from which no group parses): the records are read from offset
32 forward, reading stops at the malformed tail (`valid_idx` is the
end of the last valid group), the file is truncated to that
boundary, and `checkpoint_len` becomes
`min(checkpoint_len, valid_len)`. -/
theorem C5_open_recovery (rs : List WalRecord) (hwf : ∀ r ∈ rs, WFRecord r)
    (mcl : Nat) (h32 : 32 ≤ mcl) (h64 : mcl < 2 ^ 64)
    (junk : List Nat) (hjunk : parseGroups junk = ([], 0)) (hne : junk ≠ []) :
    parseGroups ((manifestBytes mcl ++ (serializeAppends rs ++ junk)).drop 32) =
      (rs, (serializeAppends rs).length) ∧
    (walOpen (manifestBytes mcl ++ (serializeAppends rs ++ junk))).records = rs ∧
    (walOpen (manifestBytes mcl ++ (serializeAppends rs ++ junk))).fileLen =
      32 + (serializeAppends rs).length ∧
    (walOpen (manifestBytes mcl ++ (serializeAppends rs ++ junk))).checkpointLen =
      min mcl (32 + (serializeAppends rs).length) := by
  have hparse : parseGroups ((manifestBytes mcl ++ (serializeAppends rs ++ junk)).drop 32) =
      (rs, (serializeAppends rs).length) := by
    rw [drop_chunk 32 _ _ (manifestBytes_length mcl),
      parseGroups_serialize rs junk hwf, hjunk]
    simp
  refine ⟨hparse, ?_⟩
  unfold walOpen
  rw [readManifest_wf mcl _ h32 h64]
  simp only [hparse]
  have hjlen : 1 ≤ junk.length := by
    cases junk with
    | nil => exact absurd rfl hne
    | cons a l => simp
  have hflen : (manifestBytes mcl ++ (serializeAppends rs ++ junk)).length =
      32 + ((serializeAppends rs).length + junk.length) := by
    simp [manifestBytes_length]
  rw [if_pos (by omega)]
  have htake : ((manifestBytes mcl ++ (serializeAppends rs ++ junk)).take
      (32 + (serializeAppends rs).length)).length = 32 + (serializeAppends rs).length := by
    rw [List.length_take]
    omega
  refine ⟨trivial, htake, ?_⟩
  rcases le_or_lt mcl (32 + (serializeAppends rs).length) with hle | hlt
  · rw [if_neg (by omega), Nat.min_eq_left hle]
  · rw [if_pos (by omega), Nat.min_eq_right (by omega)]

theorem c7Records_wf : ∀ r ∈ c7Records, WFRecord r := by
  intro r hr
  simp only [c7Records, List.mem_cons, List.not_mem_nil, or_false] at hr
  rcases hr with h | h | h <;> subst h <;> (unfold WFRecord; decide)

theorem C7_witness :
    (∀ r ∈ c7Records, WFRecord r) ∧
    (walOpen (manifestBytes 32 ++ serializeAppends c7Records)).records = c7Records :=
  ⟨c7Records_wf, (C7_wal_roundtrip c7Records c7Records_wf).1⟩

theorem c5Records_wf : ∀ r ∈ c5Records, WFRecord r := by
  intro r hr
  simp only [c5Records, List.mem_cons, List.not_mem_nil, or_false] at hr
  subst hr
  unfold WFRecord
  decide

theorem C5_witness :
    ((∀ r ∈ c5Records, WFRecord r) ∧ (32 ≤ 100 ∧ (100 : Nat) < 2 ^ 64) ∧
      parseGroups [170, 5] = ([], 0) ∧ ([170, 5] : List Nat) ≠ []) ∧
    ((walOpen (manifestBytes 100 ++ (serializeAppends c5Records ++ [170, 5]))).fileLen =
        32 + (serializeAppends c5Records).length ∧
     (walOpen (manifestBytes 100 ++ (serializeAppends c5Records ++ [170, 5]))).checkpointLen =
        min 100 (32 + (serializeAppends c5Records).length)) :=
  ⟨⟨c5Records_wf, ⟨by norm_num, by norm_num⟩, by decide, by decide⟩,
   ⟨(C5_open_recovery c5Records c5Records_wf 100 (by norm_num) (by norm_num)
       [170, 5] (by decide) (by decide)).2.2.1,
    (C5_open_recovery c5Records c5Records_wf 100 (by norm_num) (by norm_num)
       [170, 5] (by decide) (by decide)).2.2.2⟩⟩

theorem C10_witness :
    (((TxLife.mk .Active 7 [.Remove 0 [97]] [] []).commitInPlace).state ≠
        TxState.Active) ∧
    ((TxLife.mk .Active 7 [.Remove 0 [97]] [] []).state = TxState.Active ∧
      ((TxLife.mk .Active 7 [.Remove 0 [97]] [] []).dropTx).wal =
        ([] : List WalRecord) ++ [txnMarkerRecord .Abort .Redo 7]) :=
  ⟨(C10_terminal_marker_once _).1,
   ⟨rfl, ((C10_terminal_marker_once (TxLife.mk .Active 7 [.Remove 0 [97]] [] [])).2.2.2
      rfl).1⟩⟩

theorem cmpBytes_lt_of_la_lt (x y : List Nat) (hx : ∀ b ∈ x, b < 256)
    (hy : ∀ b ∈ y, b < 256) (h : getLookahead x < getLookahead y) :
    cmpBytes x y = .lt := by
  match x, y with
  | [], [] => simp [getLookahead] at h
  | [], c :: cs => simp [cmpBytes]
  | a :: as, [] =>
    exfalso
    simp [getLookahead] at h
  | a :: as, c :: cs =>
    have hxa : as.headD 0 < 256 := by
      cases as with
      | nil => simp
      | cons b bs => exact hx b (by simp)
    have hyc : cs.headD 0 < 256 := by
      cases cs with
      | nil => simp
      | cons d ds => exact hy d (by simp)
    simp only [getLookahead, List.headD_cons, List.drop_succ_cons, List.drop_zero] at h
    rcases Nat.lt_or_ge a c with hac | hac
    · simp [cmpBytes, Nat.compare_eq_lt.mpr hac]
    · have hae : a = c := by omega
      subst hae
      have h2 : as.headD 0 < cs.headD 0 := by omega
      simp only [cmpBytes, Nat.compare_eq_eq.mpr rfl]
      cases as with
      | nil =>
        cases cs with
        | nil => simp at h2
        | cons d ds => simp [cmpBytes]
      | cons b bs =>
        cases cs with
        | nil => simp at h2
        | cons d ds =>
          simp only [List.headD_cons] at h2
          simp [cmpBytes, Nat.compare_eq_lt.mpr h2]

theorem goodLeaf_count {n : Node} {lf uf : Slot} {us : List Slot}
    (h : GoodLeaf n lf uf us) : n.recordCount = us.length + 2 := by
  simp [Node.recordCount, h.shape]

theorem goodLeaf_kv0 {n : Node} {lf uf : Slot} {us : List Slot}
    (h : GoodLeaf n lf uf us) : n.getKvMeta 0 = lf := by
  simp [Node.getKvMeta, h.shape]

theorem goodLeaf_kvLast {n : Node} {lf uf : Slot} {us : List Slot}
    (h : GoodLeaf n lf uf us) : n.getKvMeta (us.length + 1) = uf := by
  simp only [Node.getKvMeta, h.shape]
  rw [List.getD_cons_succ]
  rw [show us ++ [uf] = (us ++ [uf] : List Slot) from rfl]
  have hlen : us.length < (us ++ [uf]).length := by simp
  rw [List.getD_eq_get _ _ hlen]
  simp

theorem goodLeaf_kvMid {n : Node} {lf uf : Slot} {us : List Slot}
    (hg : GoodLeaf n lf uf us) (i : Nat) (h1 : 1 ≤ i) (h2 : i ≤ us.length) :
    ∃ hlt : i - 1 < us.length, n.getKvMeta i = us.get ⟨i - 1, hlt⟩ := by
  have hlt : i - 1 < us.length := by omega
  refine ⟨hlt, ?_⟩
  simp only [Node.getKvMeta, hg.shape]
  obtain ⟨j, rfl⟩ : ∃ j, i = j + 1 := ⟨i - 1, by omega⟩
  rw [List.getD_cons_succ]
  have hj : j < (us ++ [uf]).length := by simp; omega
  rw [List.getD_eq_get _ _ hj]
  have hju : j < us.length := by omega
  simp only [Nat.add_sub_cancel]
  rw [List.get_append _ hju]

theorem goodLeaf_pfx {n : Node} {lf uf : Slot} {us : List Slot}
    (h : GoodLeaf n lf uf us) : n.nodePfx = lcpBytes lf.key uf.key := by
  rw [Node.nodePfx, goodLeaf_kv0 h, goodLeaf_count h]
  have : us.length + 2 - 1 = us.length + 1 := by omega
  rw [this, goodLeaf_kvLast h]

theorem insertIdx_eq_take_drop {α : Type} (a : α) :
    ∀ (k : Nat) (l : List α), k ≤ l.length →
      l.insertIdx k a = l.take k ++ a :: l.drop k := by
  intro k
  induction k with
  | zero => intro l _; simp [List.insertIdx_zero]
  | succ k ih =>
    intro l hl
    cases l with
    | nil => simp at hl
    | cons x xs =>
      rw [List.insertIdx_succ_cons]
      simp only [List.take_succ_cons, List.drop_succ_cons, List.cons_append, List.cons.injEq]
      exact ⟨trivial, ih xs (by simpa using hl)⟩

theorem bsLoop_succ (n : Node) (ks : List Nat) (tl fuel lower upper : Nat) :
    Node.bsLoop n ks tl (fuel + 1) lower upper =
    if lower ≤ upper then
      let mid := lower + (upper - lower) / 2
      let midKv := n.getKvMeta mid
      match compare tl midKv.lookahead with
      | .lt => if mid = 0 then .error lower else Node.bsLoop n ks tl fuel lower (mid - 1)
      | .eq =>
        match cmpBytes ks midKv.key with
        | .lt => if mid = 0 then .error lower else Node.bsLoop n ks tl fuel lower (mid - 1)
        | .eq => .ok mid
        | .gt => Node.bsLoop n ks tl fuel (mid + 1) upper
      | .gt => Node.bsLoop n ks tl fuel (mid + 1) upper
    else .error lower := rfl

theorem bsLoop_insertion (n : Node) (ks : List Nat) (L : Nat)
    (hks : ∀ b ∈ ks, b < 256)
    (hla : ∀ i, 1 ≤ i → i ≤ L →
      (n.getKvMeta i).lookahead = getLookahead (n.getKvMeta i).key)
    (hbytes : ∀ i, 1 ≤ i → i ≤ L → ∀ b ∈ (n.getKvMeta i).key, b < 256)
    (hsorted : ∀ i j, 1 ≤ i → i < j → j ≤ L →
      cmpBytes (n.getKvMeta i).key (n.getKvMeta j).key = Ordering.lt)
    (hfresh : ∀ i, 1 ≤ i → i ≤ L → cmpBytes ks (n.getKvMeta i).key ≠ Ordering.eq) :
    ∀ (fuel lower upper : Nat), 1 ≤ lower → lower ≤ upper + 1 → upper ≤ L →
    upper + 1 - lower ≤ fuel →
    (∀ i, 1 ≤ i → i < lower → cmpBytes (n.getKvMeta i).key ks = Ordering.lt) →
    (∀ i, upper < i → i ≤ L → cmpBytes ks (n.getKvMeta i).key = Ordering.lt) →
    ∃ res, Node.bsLoop n ks (getLookahead ks) fuel lower upper = .error res ∧
      lower ≤ res ∧ res ≤ upper + 1 ∧
      (∀ i, 1 ≤ i → i < res → cmpBytes (n.getKvMeta i).key ks = Ordering.lt) ∧
      (∀ i, res ≤ i → i ≤ L → cmpBytes ks (n.getKvMeta i).key = Ordering.lt) := by
  intro fuel
  induction fuel with
  | zero =>
    intro lower upper h1 hlu hL hf hleft hright
    refine ⟨lower, rfl, le_refl _, by omega, hleft, ?_⟩
    intro i hi hiL
    exact hright i (by omega) hiL
  | succ fuel ih =>
    intro lower upper h1 hlu hL hf hleft hright
    by_cases hle : lower ≤ upper
    · have hmid2 : lower + (upper - lower) / 2 ≤ upper := by omega
      set mid := lower + (upper - lower) / 2 with hmiddef
      have hmid1 : lower ≤ mid := Nat.le_add_right _ _
      have hmidL : mid ≤ L := le_trans hmid2 hL
      have hmid0 : ¬ mid = 0 := by omega
      have hmidla := hla mid (by omega) hmidL
      rcases hcmp : compare (getLookahead ks) (n.getKvMeta mid).lookahead with _ | _ | _
      · -- lookahead of the probe key is below the slot's lookahead
        have hkm : cmpBytes ks (n.getKvMeta mid).key = .lt := by
          refine cmpBytes_lt_of_la_lt _ _ hks (hbytes mid (by omega) hmidL) ?_
          rw [← hmidla]
          exact Nat.compare_eq_lt.mp hcmp
        have hrt : ∀ i, mid - 1 < i → i ≤ L →
            cmpBytes ks (n.getKvMeta i).key = Ordering.lt := by
          intro i hmi hiL2
          rcases eq_or_lt_of_le (show mid ≤ i by omega) with h | h
          · rw [← h]; exact hkm
          · exact cmpBytes_trans_lt hkm (hsorted mid i (by omega) h hiL2)
        obtain ⟨res, hres, hlb, hub, hL', hR'⟩ :=
          ih lower (mid - 1) h1 (by omega) (by omega) (by omega) hleft hrt
        refine ⟨res, ?_, hlb, by omega, hL', hR'⟩
        rw [bsLoop_succ, if_pos hle]
        simp only [← hmiddef, hcmp, if_neg hmid0]
        exact hres
      · -- equal lookaheads: tie-break on the full suffix
        rcases hc : cmpBytes ks (n.getKvMeta mid).key with _ | _ | _
        · have hrt : ∀ i, mid - 1 < i → i ≤ L →
              cmpBytes ks (n.getKvMeta i).key = Ordering.lt := by
            intro i hmi hiL2
            rcases eq_or_lt_of_le (show mid ≤ i by omega) with h | h
            · rw [← h]; exact hc
            · exact cmpBytes_trans_lt hc (hsorted mid i (by omega) h hiL2)
          obtain ⟨res, hres, hlb, hub, hL', hR'⟩ :=
            ih lower (mid - 1) h1 (by omega) (by omega) (by omega) hleft hrt
          refine ⟨res, ?_, hlb, by omega, hL', hR'⟩
          rw [bsLoop_succ, if_pos hle]
          simp only [← hmiddef, hcmp, hc, if_neg hmid0]
          exact hres
        · exact absurd hc (hfresh mid (by omega) hmidL)
        · have hkm : cmpBytes (n.getKvMeta mid).key ks = .lt := by
            rw [cmpBytes_swap, hc]; rfl
          have hlt : ∀ i, 1 ≤ i → i < mid + 1 →
              cmpBytes (n.getKvMeta i).key ks = Ordering.lt := by
            intro i hi1 hilt
            rcases eq_or_lt_of_le (show i ≤ mid by omega) with h | h
            · rw [h]; exact hkm
            · exact cmpBytes_trans_lt (hsorted i mid hi1 h hmidL) hkm
          obtain ⟨res, hres, hlb, hub, hL', hR'⟩ :=
            ih (mid + 1) upper (by omega) (by omega) hL (by omega) hlt hright
          refine ⟨res, ?_, by omega, hub, hL', hR'⟩
          rw [bsLoop_succ, if_pos hle]
          simp only [← hmiddef, hcmp, hc]
          exact hres
      · -- lookahead of the probe key is above the slot's lookahead
        have hkm : cmpBytes (n.getKvMeta mid).key ks = .lt := by
          refine cmpBytes_lt_of_la_lt _ _ (hbytes mid (by omega) hmidL) hks ?_
          rw [← hmidla]
          exact Nat.compare_eq_gt.mp hcmp
        have hlt : ∀ i, 1 ≤ i → i < mid + 1 →
            cmpBytes (n.getKvMeta i).key ks = Ordering.lt := by
          intro i hi1 hilt
          rcases eq_or_lt_of_le (show i ≤ mid by omega) with h | h
          · rw [h]; exact hkm
          · exact cmpBytes_trans_lt (hsorted i mid hi1 h hmidL) hkm
        obtain ⟨res, hres, hlb, hub, hL', hR'⟩ :=
          ih (mid + 1) upper (by omega) (by omega) hL (by omega) hlt hright
        refine ⟨res, ?_, by omega, hub, hL', hR'⟩
        rw [bsLoop_succ, if_pos hle]
        simp only [← hmiddef, hcmp]
        exact hres
    · refine ⟨lower, ?_, le_refl _, by omega, hleft, ?_⟩
      · rw [bsLoop_succ, if_neg hle]
      · intro i hi hiL
        exact hright i (by omega) hiL

theorem binarySearch_insertion (n : Node) (lf uf : Slot) (us : List Slot) (ks : List Nat)
    (hg : GoodLeaf n lf uf us) (hks : ∀ b ∈ ks, b < 256)
    (hfresh : ∀ s ∈ us, cmpBytes ks s.key ≠ Ordering.eq) :
    ∃ res, n.binarySearch ks = .error res ∧ 1 ≤ res ∧ res ≤ us.length + 1 ∧
      (∀ j (hj : j < us.length), j + 1 < res →
        cmpBytes (us.get ⟨j, hj⟩).key ks = Ordering.lt) ∧
      (∀ j (hj : j < us.length), res ≤ j + 1 →
        cmpBytes ks (us.get ⟨j, hj⟩).key = Ordering.lt) := by
  have hcount := goodLeaf_count hg
  by_cases hnil : us = []
  · subst hnil
    refine ⟨1, ?_, le_refl _, by omega, ?_, ?_⟩
    · simp [Node.binarySearch, hcount]
    · intro j hj
      simp at hj
    · intro j hj
      simp at hj
  · have hL1 : 1 ≤ us.length := by
      cases us with
      | nil => exact absurd rfl hnil
      | cons a l => simp
    have hla' : ∀ i, 1 ≤ i → i ≤ us.length →
        (n.getKvMeta i).lookahead = getLookahead (n.getKvMeta i).key := by
      intro i h1 h2
      obtain ⟨hlt, he⟩ := goodLeaf_kvMid hg i h1 h2
      rw [he]
      exact hg.usLa _ (List.get_mem us _ hlt)
    have hbytes' : ∀ i, 1 ≤ i → i ≤ us.length →
        ∀ b ∈ (n.getKvMeta i).key, b < 256 := by
      intro i h1 h2
      obtain ⟨hlt, he⟩ := goodLeaf_kvMid hg i h1 h2
      rw [he]
      exact hg.usBytes _ (List.get_mem us _ hlt)
    have hsorted' : ∀ i j, 1 ≤ i → i < j → j ≤ us.length →
        cmpBytes (n.getKvMeta i).key (n.getKvMeta j).key = Ordering.lt := by
      intro i j h1 hij hjL
      obtain ⟨hi', hei⟩ := goodLeaf_kvMid hg i h1 (by omega)
      obtain ⟨hj', hej⟩ := goodLeaf_kvMid hg j (by omega) hjL
      rw [hei, hej]
      exact List.pairwise_iff_get.mp hg.sorted ⟨i - 1, hi'⟩ ⟨j - 1, hj'⟩ (by
        rw [Fin.mk_lt_mk]; omega)
    have hfresh' : ∀ i, 1 ≤ i → i ≤ us.length →
        cmpBytes ks (n.getKvMeta i).key ≠ Ordering.eq := by
      intro i h1 h2
      obtain ⟨hlt, he⟩ := goodLeaf_kvMid hg i h1 h2
      rw [he]
      exact hfresh _ (List.get_mem us _ hlt)
    obtain ⟨res, hres, hlb, hub, hLeft, hRight⟩ :=
      bsLoop_insertion n ks us.length hks hla' hbytes' hsorted' hfresh'
        us.length 1 us.length (le_refl 1) (by omega) (le_refl _) (by omega)
        (fun i h1 h2 => absurd h2 (by omega))
        (fun i h1 h2 => absurd (lt_of_lt_of_le h1 h2) (by omega))
    have harith : us.length + 2 - 1 = us.length + 1 := by omega
    have harith2 : us.length + 1 - 1 = us.length := by omega
    refine ⟨res, ?_, by omega, hub, ?_, ?_⟩
    · unfold Node.binarySearch
      rw [hcount]
      rw [if_neg (by omega)]
      simp only [goodLeaf_kv0 hg, hg.lfFence, if_true, harith]
      rw [goodLeaf_kvLast hg]
      simp only [hg.ufFence, if_true, harith2]
      rw [if_neg (by omega)]
      exact hres
    · intro j hj hjr
      obtain ⟨hlt, he⟩ := goodLeaf_kvMid hg (j + 1) (by omega) (by omega)
      have h := hLeft (j + 1) (by omega) hjr
      rw [he] at h
      exact h
    · intro j hj hjr
      obtain ⟨hlt, he⟩ := goodLeaf_kvMid hg (j + 1) (by omega) (by omega)
      have h := hRight (j + 1) hjr (by omega)
      rw [he] at h
      exact h

theorem goodLeaf_reset (n : Node) (l u : List Nat) :
    GoodLeaf (n.resetUserEntriesWithFences l u)
      ⟨l, [], .Cache, true, true, (n.sizeBytes - u.length - l.length) % 65536, 0⟩
      ⟨u, [], .Cache, true, true, (n.sizeBytes - u.length) % 65536, 0⟩ [] := by
  refine ⟨rfl, rfl, rfl, ?_, ?_, ?_, ?_⟩ <;> simp

theorem tryPutWithSuffix_ok (n : Node) (lf uf : Slot) (us : List Slot) (ks v : List Nat)
    (hg : GoodLeaf n lf uf us) (hks : ∀ b ∈ ks, b < 256)
    (hfresh : ∀ s ∈ us, s.key ≠ ks) (n' : Node)
    (hok : n.tryPutWithSuffix ks v = .ok n') :
    ∃ us', GoodLeaf n' lf uf us' ∧
      (us'.map (fun s => (s.key, s.val))).Perm
        ((ks, v) :: us.map (fun s => (s.key, s.val))) := by
  have hfr : ∀ s ∈ us, cmpBytes ks s.key ≠ Ordering.eq := by
    intro s hs he
    exact hfresh s hs (cmpBytes_eq_iff.mp he).symm
  obtain ⟨res, hbs, h1, h2, hLeft, hRight⟩ := binarySearch_insertion n lf uf us ks hg hks hfr
  simp only [Node.tryPutWithSuffix, hbs] at hok
  by_cases hgt : ks.length + v.length > n.findMinOffset
  · rw [if_pos hgt] at hok
    exact absurd hok (by simp)
  · rw [if_neg hgt] at hok
    by_cases hme : n.findMinOffset - (ks.length + v.length) < (n.recordCount + 2) * 8
    · rw [if_pos hme] at hok
      exact absurd hok (by simp)
    · rw [if_neg hme] at hok
      rw [Except.ok.injEq] at hok
      obtain ⟨r, hr⟩ : ∃ r, res = r + 1 := ⟨res - 1, by omega⟩
      have hrle : r ≤ us.length := by omega
      subst hr
      set newMeta : Slot :=
        ⟨ks, v, .Insert, false, true,
          (n.findMinOffset - (ks.length + v.length)) % 65536, getLookahead ks⟩ with hnm
      refine ⟨us.take r ++ newMeta :: us.drop r, ?_, ?_⟩
      · -- the inserted directory is again a well-formed leaf around the same fences
        have hshape : n'.slots = lf :: ((us.take r ++ newMeta :: us.drop r) ++ [uf]) := by
          rw [← hok]
          show (n.slots.insertIdx (r + 1) newMeta) = _
          rw [hg.shape, List.insertIdx_succ_cons,
            insertIdx_eq_take_drop newMeta r (us ++ [uf]) (by simp; omega),
            List.take_append_of_le_length hrle, List.drop_append_of_le_length hrle]
          simp
        have htk : ∀ s ∈ us.take r, cmpBytes s.key ks = Ordering.lt := by
          intro s hs
          obtain ⟨i, hi, he⟩ := List.mem_iff_getElem.mp hs
          have hiu : i < us.length := by
            rw [List.length_take] at hi; omega
          have hir : i < r := by
            rw [List.length_take] at hi; omega
          rw [List.getElem_take] at he
          have h := hLeft i hiu (by omega)
          rw [List.get_eq_getElem] at h
          rw [he] at h
          exact h
        have hdk : ∀ s ∈ us.drop r, cmpBytes ks s.key = Ordering.lt := by
          intro s hs
          obtain ⟨i, hi, he⟩ := List.mem_iff_getElem.mp hs
          have hru : r + i < us.length := by
            rw [List.length_drop] at hi; omega
          rw [List.getElem_drop] at he
          have h := hRight (r + i) hru (by omega)
          rw [List.get_eq_getElem] at h
          rw [he] at h
          exact h
        have hsor := hg.sorted
        rw [← List.take_append_drop r us] at hsor
        obtain ⟨hp1, hp2, hcross⟩ := List.pairwise_append.mp hsor
        refine ⟨hshape, hg.lfFence, hg.ufFence, ?_, ?_, ?_, ?_⟩
        · intro s hs
          rcases List.mem_append.mp hs with h | h
          · exact hg.usFence s (List.mem_of_mem_take h)
          · rcases List.mem_cons.mp h with rfl | h'
            · rfl
            · exact hg.usFence s (List.mem_of_mem_drop h')
        · intro s hs
          rcases List.mem_append.mp hs with h | h
          · exact hg.usLa s (List.mem_of_mem_take h)
          · rcases List.mem_cons.mp h with rfl | h'
            · rfl
            · exact hg.usLa s (List.mem_of_mem_drop h')
        · intro s hs
          rcases List.mem_append.mp hs with h | h
          · exact hg.usBytes s (List.mem_of_mem_take h)
          · rcases List.mem_cons.mp h with rfl | h'
            · exact hks
            · exact hg.usBytes s (List.mem_of_mem_drop h')
        · refine List.pairwise_append.mpr ⟨hp1, ?_, ?_⟩
          · refine List.pairwise_cons.mpr ⟨?_, hp2⟩
            intro b hb
            exact hdk b hb
          · intro a ha b hb
            rcases List.mem_cons.mp hb with rfl | hb'
            · exact htk a ha
            · exact hcross a ha b hb'
      · have hmapeq : (us.take r ++ newMeta :: us.drop r).map (fun s => (s.key, s.val)) =
            (us.take r).map (fun s => (s.key, s.val)) ++
              (ks, v) :: (us.drop r).map (fun s => (s.key, s.val)) := by
          simp
        have hp := @List.perm_middle _ ((ks, v) : List Nat × List Nat)
          ((us.take r).map (fun s => (s.key, s.val)))
          ((us.drop r).map (fun s => (s.key, s.val)))
        rw [← List.map_append, List.take_append_drop] at hp
        rw [hmapeq]
        exact hp

theorem replayEntries_good (lf uf : Slot) (P : List Nat)
    (hP : lcpBytes lf.key uf.key = P) :
    ∀ (E : List (List Nat × List Nat)) (n : Node) (us : List Slot) (n' : Node),
    GoodLeaf n lf uf us →
    (∀ kv ∈ E, List.take P.length kv.1 = P) →
    (∀ kv ∈ E, ∀ b ∈ kv.1, b < 256) →
    E.Pairwise (fun a b => a.1 ≠ b.1) →
    (∀ kv ∈ E, ∀ s ∈ us, s.key ≠ List.drop P.length kv.1) →
    n.replayEntries E = .ok n' →
    ∃ us', GoodLeaf n' lf uf us' ∧
      (us'.map (fun s => (s.key, s.val))).Perm
        (E.map (fun kv => (List.drop P.length kv.1, kv.2)) ++
          us.map (fun s => (s.key, s.val))) := by
  intro E
  induction E with
  | nil =>
    intro n us n' hg _ _ _ _ hok
    simp only [Node.replayEntries] at hok
    rw [Except.ok.injEq] at hok
    subst hok
    exact ⟨us, hg, by simp⟩
  | cons kv rest ih =>
    intro n us n' hg hpfx hbytes hdist hfr hok
    obtain ⟨k, v⟩ := kv
    simp only [Node.replayEntries] at hok
    rcases htp : n.tryPut k v with e | n1
    · rw [htp] at hok
      simp at hok
    · rw [htp] at hok
      have htp' : n.tryPutWithSuffix (List.drop P.length k) v = .ok n1 := by
        have h := htp
        rw [Node.tryPut] at h
        simp only [goodLeaf_pfx hg, hP] at h
        exact h
      have hks' : ∀ b ∈ List.drop P.length k, b < 256 := fun b hb =>
        hbytes (k, v) (by simp) b (List.mem_of_mem_drop hb)
      have hfresh' : ∀ s ∈ us, s.key ≠ List.drop P.length k := fun s hs =>
        hfr (k, v) (by simp) s hs
      obtain ⟨us1, hg1, hperm1⟩ :=
        tryPutWithSuffix_ok n lf uf us (List.drop P.length k) v hg hks' hfresh' n1 htp'
      have hhd := (List.pairwise_cons.mp hdist).1
      have hfr1 : ∀ kv' ∈ rest, ∀ s ∈ us1, s.key ≠ List.drop P.length kv'.1 := by
        intro kv' hkv' s hs heq
        have hmem : (s.key, s.val) ∈ us1.map (fun s => (s.key, s.val)) :=
          List.mem_map_of_mem _ hs
        have hmem2 := hperm1.mem_iff.mp hmem
        rcases List.mem_cons.mp hmem2 with he | hm
        · have hsk : s.key = List.drop P.length k := congrArg Prod.fst he
          have hdd : List.drop P.length k = List.drop P.length kv'.1 := by
            rw [← hsk, heq]
          have h1 := append_take_drop P k (hpfx (k, v) (by simp))
          have h2 := append_take_drop P kv'.1 (hpfx kv' (by simp [hkv']))
          have hk1 : k = kv'.1 := by rw [← h1, ← h2, hdd]
          exact hhd kv' hkv' hk1
        · obtain ⟨t, ht, hft⟩ := List.mem_map.mp hm
          have htk : t.key = s.key := congrArg Prod.fst hft
          exact hfr kv' (by simp [hkv']) t ht (htk.trans heq)
      obtain ⟨us', hg', hperm'⟩ := ih n1 us1 n' hg1
        (fun kv hkv => hpfx kv (List.mem_cons_of_mem _ hkv))
        (fun kv hkv => hbytes kv (List.mem_cons_of_mem _ hkv))
        (List.pairwise_cons.mp hdist).2 hfr1 hok
      refine ⟨us', hg', ?_⟩
      have h3 := List.Perm.append_left
        (rest.map (fun kv => (List.drop P.length kv.1, kv.2))) hperm1
      have h4 := @List.perm_middle _ (List.drop P.length k, v)
        (rest.map (fun kv => (List.drop P.length kv.1, kv.2)))
        (us.map (fun s => (s.key, s.val)))
      have hall := hperm'.trans (h3.trans h4)
      simpa using hall

/-- C4: for every fence pair `(l, u)` and every entry list `E` with
distinct keys that start with `lcp(l, u)`, lie within `[l, u)` and fit
in the page (the replay returns `Ok`), running
`reset_user_entries_with_fences(l, u)` followed by `replay_entries(E)`
and reading the non-fence entries back yields exactly the pairs of `E`
in strictly sorted key order. -/
theorem C4_reset_replay_reads_back (n : Node) (l u : List Nat)
    (E : List (List Nat × List Nat)) (n' : Node)
    (hpfx : ∀ kv ∈ E, List.take (lcpBytes l u).length kv.1 = lcpBytes l u)
    (hbytes : ∀ kv ∈ E, ∀ b ∈ kv.1, b < 256)
    (hrange : ∀ kv ∈ E, cmpBytes l kv.1 ≠ Ordering.gt ∧ cmpBytes kv.1 u = Ordering.lt)
    (hdist : E.Pairwise (fun a b => a.1 ≠ b.1))
    (hok : (n.resetUserEntriesWithFences l u).replayEntries E = .ok n') :
    n'.userRecords.Perm E ∧
      (n'.userRecords.map Prod.fst).Pairwise (fun a b => cmpBytes a b = Ordering.lt) := by
  have hg0 := goodLeaf_reset n l u
  obtain ⟨us', hg', hperm⟩ := replayEntries_good _ _ (lcpBytes l u) rfl E _ [] n' hg0
    hpfx hbytes hdist (by intro kv _ s hs; simp at hs) hok
  rw [List.map_nil, List.append_nil] at hperm
  have hfil : n'.slots.filter (fun s => !s.fence) = us' := by
    rw [hg'.shape]
    rw [List.filter_cons_of_neg (by simp [hg'.lfFence])]
    rw [List.filter_append]
    rw [List.filter_cons_of_neg (by simp [hg'.ufFence])]
    rw [List.filter_nil, List.append_nil]
    exact List.filter_eq_self.mpr (fun s hs => by simp [hg'.usFence s hs])
  have hpfx' : n'.nodePfx = lcpBytes l u := goodLeaf_pfx hg'
  have hur : n'.userRecords = us'.map (fun s => (lcpBytes l u ++ s.key, s.val)) := by
    rw [Node.userRecords]
    rw [hfil, hpfx']
  constructor
  · have hmm := hperm.map (fun q : List Nat × List Nat => (lcpBytes l u ++ q.1, q.2))
    rw [List.map_map, List.map_map] at hmm
    have hE : E.map ((fun q : List Nat × List Nat => (lcpBytes l u ++ q.1, q.2)) ∘
        (fun kv => (List.drop (lcpBytes l u).length kv.1, kv.2))) = E := by
      have hid : ∀ kv ∈ E,
          ((fun q : List Nat × List Nat => (lcpBytes l u ++ q.1, q.2)) ∘
            (fun kv => (List.drop (lcpBytes l u).length kv.1, kv.2))) kv = id kv := by
        intro kv hkv
        simp only [Function.comp_apply, id_eq]
        rw [append_take_drop _ _ (hpfx kv hkv)]
      rw [List.map_congr_left hid, List.map_id]
    rw [hE] at hmm
    rw [hur]
    have hcomp : ((fun q : List Nat × List Nat => (lcpBytes l u ++ q.1, q.2)) ∘
        (fun s : Slot => (s.key, s.val))) = fun s : Slot => (lcpBytes l u ++ s.key, s.val) :=
      rfl
    rw [hcomp] at hmm
    exact hmm
  · rw [hur, List.map_map]
    refine List.pairwise_map.mpr ?_
    refine List.Pairwise.imp ?_ hg'.sorted
    intro a b hab
    show cmpBytes (lcpBytes l u ++ a.key) (lcpBytes l u ++ b.key) = Ordering.lt
    rw [cmpBytes_append_left]
    exact hab

theorem C4_witness :
    (∀ kv ∈ c4Entries,
      List.take (lcpBytes [97] [99]).length kv.1 = lcpBytes [97] [99]) ∧
    (∀ kv ∈ c4Entries, ∀ b ∈ kv.1, b < 256) ∧
    (∀ kv ∈ c4Entries,
      cmpBytes [97] kv.1 ≠ Ordering.gt ∧ cmpBytes kv.1 [99] = Ordering.lt) ∧
    c4Entries.Pairwise (fun a b => a.1 ≠ b.1) ∧
    ((Node.mk 4096 []).resetUserEntriesWithFences [97] [99]).replayEntries c4Entries =
      .ok c4Result ∧
    c4Result.userRecords.Perm c4Entries ∧
      (c4Result.userRecords.map Prod.fst).Pairwise
        (fun a b => cmpBytes a b = Ordering.lt) :=
  ⟨by decide, by decide, by decide, by decide, by rfl,
    C4_reset_replay_reads_back (Node.mk 4096 []) [97] [99] c4Entries c4Result
      (by decide) (by decide) (by decide) (by decide) (by rfl)⟩

end Quickstep
